import Mathlib

/-!
# WatermelonCache (GoCache): consistent-hash ring and Group orchestration

A shallow embedding of `GoCache/consistenthash/consistenthash.go`, `GoCache/byte_view.go`,
`GoCache/cache.go` and `GoCache/gocache.go`.

Conventions of the embedding

* A Go `string` is a Lean `String`; the conversion `[]byte(s)` keeps the content, so a
  `Hash` is a function of the string whose bytes it receives.
* Go `int` is taken to be 64 bits wide (every ring value is `int(uint32)`, which fits);
  ring values are `Int`, the `uint32` result of a hash is a `Nat` reduced modulo `2 ^ 32`.
* A Go `error` is its message; `nil` is `none`.
* Methods with a pointer receiver are state passing: they return the receiver they leave behind.
* Calls that leave the Group (cache facade, loader, peer router, peer transport, single-flight)
  are recorded in a trace of `Event`s, in call order.
-/

/-! ## Standard-library routines used by the ring -/

namespace sort

/-- The loop of Go's `sort.Search`: `i, j := 0, n; for i < j { h := int(uint(i+j) >> 1);
if !f(h) { i = h + 1 } else { j = h } }; return i`. The first argument bounds the number of
iterations; `j - i` iterations always suffice (see `searchLoop_spec`). -/
def searchLoop (f : Nat → Bool) : Nat → Nat → Nat → Nat
  | 0, i, _ => i
  | fuel + 1, i, j =>
    if i < j then
      let h := (i + j) / 2
      if !f h then searchLoop f fuel (h + 1) j else searchLoop f fuel i h
    else i

/-- Go's `sort.Search(n, f)`. -/
def Search (n : Nat) (f : Nat → Bool) : Nat :=
  searchLoop f n 0 n

/-- Go's `sort.Ints`: the ascending rearrangement of the slice (unique for integers, so the
algorithm used by the library does not matter). -/
def Ints (a : List Int) : List Int :=
  a.insertionSort (· ≤ ·)

/-- The loop of `sort.Search` for a predicate that may panic (`none`): the panic of `f(h)`
is the panic of the search. -/
def searchLoopChecked (f : Nat → Option Bool) : Nat → Nat → Nat → Option Nat
  | 0, i, _ => some i
  | fuel + 1, i, j =>
    if i < j then
      match f ((i + j) / 2) with
      | none => none
      | some b =>
        if !b then searchLoopChecked f fuel ((i + j) / 2 + 1) j
        else searchLoopChecked f fuel i ((i + j) / 2)
    else some i

/-- Go's `sort.Search(n, f)` for a predicate that may panic. -/
def SearchChecked (n : Nat) (f : Nat → Option Bool) : Option Nat :=
  searchLoopChecked f n 0 n

end sort

/-! ## consistenthash -/

namespace consistenthash

/-- The type `Hash func(data []byte) uint32`; the result is read modulo `2 ^ 32`. -/
abbrev Hash := String → Nat

/-- The struct `Map`. A Go `map[int]string` is a finite function; an absent key is `none`. -/
structure Map where
  hash : Hash
  replicas : Int
  keys : List Int
  hashMap : Int → Option String

/-- The expression `int(m.hash([]byte(s)))`. -/
def Map.hashInt (m : Map) (s : String) : Int :=
  ((m.hash s % 2 ^ 32 : Nat) : Int)

/-- The map read `m.hashMap[k]`, which yields the zero value `""` for an absent key. -/
def Map.lookup (m : Map) (k : Int) : String :=
  (m.hashMap k).getD ""

/-- The function `New`. `ChecksumIEEE` stands for the library's `crc32.ChecksumIEEE`, the hash
used when `fn` is nil. -/
def New (replicas : Int) (fn : Option Hash) (ChecksumIEEE : Hash) : Map :=
  { replicas := replicas
    hash := match fn with
      | some f => f
      | none => ChecksumIEEE
    keys := []
    hashMap := fun _ => none }

/-- One iteration of the inner loop of `Add`, for replica index `i` of peer `key`:
`hash := int(m.hash([]byte(strconv.Itoa(i) + key)))`, `m.keys = append(m.keys, hash)`,
`m.hashMap[hash] = key`. -/
def Map.addReplica (m : Map) (key : String) (i : Nat) : Map :=
  let hash := m.hashInt (toString i ++ key)
  { m with
    keys := m.keys ++ [hash]
    hashMap := fun k => if k = hash then some key else m.hashMap k }

/-- The inner loop of `Add`: `for i := 0; i < m.replicas; i++`. -/
def Map.addKey (m : Map) (key : String) : Map :=
  (List.range m.replicas.toNat).foldl (fun acc i => acc.addReplica key i) m

/-- The method `Add`: both loops, then `sort.Ints(m.keys)`. -/
def Map.Add (m : Map) (keys : List String) : Map :=
  let m1 := keys.foldl (fun acc key => acc.addKey key) m
  { m1 with keys := sort.Ints m1.keys }

/-- The method `Get`, returning the peer and the receiver as it is left. -/
def Map.Get (m : Map) (key : String) : String × Map :=
  if m.keys.length = 0 then ("", m)
  else
    let hash := m.hashInt key
    let idx := sort.Search m.keys.length (fun i => decide (m.keys.getD i 0 ≥ hash))
    (m.lookup (m.keys.getD (idx % m.keys.length) 0), m)

/-- The method `Get` with Go's run-time checks made explicit: reading `m.keys[i]` outside
`[0, len(m.keys))` panics, and so does `idx % len(m.keys)` when the length is zero; a panic is
`none`. The closure handed to `sort.Search` reads `m.keys[i]`, so the search is the checked
one. -/
def Map.GetChecked (m : Map) (key : String) : Option (String × Map) :=
  if m.keys.length = 0 then some ("", m)
  else
    let hash := m.hashInt key
    match sort.SearchChecked m.keys.length
        (fun i => (m.keys[i]?).map (fun k => decide (k ≥ hash))) with
    | none => none
    | some idx =>
      if m.keys.length = 0 then none
      else
        match m.keys[idx % m.keys.length]? with
        | none => none
        | some k => some (m.lookup k, m)

/-- A ring with three replicas per peer and no peer added yet. -/
def sampleEmptyRing : Map :=
  New 3 none (fun s => s.length)

/-- The index `idx` that `Get` computes on a non-empty ring. -/
def Map.searchIdx (m : Map) (key : String) : Nat :=
  sort.Search m.keys.length (fun i => decide (m.keys.getD i 0 ≥ m.hashInt key))

/-- The virtual-node values of one peer `p`: `int(hash(itoa(i) + p))` for `i` in
`[0, replicas)`, in increasing order of `i`. -/
def Map.nodesOf (m : Map) (p : String) : List Int :=
  (List.range m.replicas.toNat).map (fun i => m.hashInt (toString i ++ p))

/-- The virtual-node values of the peers `ps`, peer by peer. -/
def Map.virtualNodes (m : Map) (ps : List String) : List Int :=
  ps.flatMap m.nodesOf

/-- A finite sequence of `Add` calls, each with its own peer list. -/
def Map.AddAll (m : Map) (calls : List (List String)) : Map :=
  calls.foldl Map.Add m

/-- A sample ring with two virtual nodes, hashing a string to its length. -/
def sampleRing : Map :=
  { hash := fun s => s.length
    replicas := 1
    keys := [1, 5]
    hashMap := fun k => if k = 1 then some "a" else if k = 5 then some "b" else none }

end consistenthash

/-! ## GoCache: value wrapper, eviction shard, cache facade, Group -/

namespace GoCache

/-- A Go `error`, identified with its message. -/
abbrev Error := String

/-- The struct `ByteView`; the zero value `ByteView{}` has no bytes. -/
structure ByteView where
  b : List UInt8
deriving DecidableEq, Repr

/-- The function `cloneBytes`: a fresh slice of the same length with the same content. -/
def cloneBytes (b : List UInt8) : List UInt8 :=
  (List.replicate b.length (0 : UInt8)).zipWith (fun _ x => x) b

/-- The method `ByteView.Len`. -/
def ByteView.Len (v : ByteView) : Int :=
  (v.b.length : Int)

/-- The method `ByteView.ByteSlice`. -/
def ByteView.ByteSlice (v : ByteView) : List UInt8 :=
  cloneBytes v.b

end GoCache

namespace lru

open GoCache

/-- Modelled from the spec: an entry of the eviction shard (package `GoCache/lru`, not part of
the sources at hand): a key and its value wrapper. -/
structure entry where
  key : String
  value : ByteView
deriving DecidableEq, Repr

/-- Modelled from the spec: the eviction shard `lru.Cache` (package `GoCache/lru`, not part of
the sources at hand): the entries in recency order, most recent first, the byte usage counter
and the byte budget. The eviction callback is left out: `cache.add` constructs the shard with
a nil callback. -/
structure Cache where
  maxBytes : Int
  nbytes : Int
  ll : List entry
deriving DecidableEq, Repr

/-- Modelled from the spec: `lru.New`, construction of an empty shard with a byte budget. -/
def New (maxBytes : Int) : Cache :=
  { maxBytes := maxBytes, nbytes := 0, ll := [] }

/-- Modelled from the spec: `lru.Cache.Get`: an absent key reports not-found; a present entry
moves to the most-recent position and its value is returned. -/
def Cache.Get (c : Cache) (key : String) : Option ByteView × Cache :=
  match c.ll.find? (fun e => e.key = key) with
  | none => (none, c)
  | some e => (some e.value, { c with ll := e :: c.ll.filter (fun x => x.key ≠ key) })

/-- Modelled from the spec: the eviction loop of `lru.Cache.Add`: while the usage counter
exceeds the byte budget and the shard is not empty, remove the least-recently-used entry and
decrease the counter by its size. Each round removes one entry, so as many rounds as there
are entries suffice. -/
def Cache.evict : Nat → Cache → Cache
  | 0, c => c
  | fuel + 1, c =>
    if c.maxBytes < c.nbytes then
      match c.ll.getLast? with
      | none => c
      | some e => Cache.evict fuel { c with ll := c.ll.dropLast, nbytes := c.nbytes - e.value.Len }
    else c

/-- Modelled from the spec: `lru.Cache.Add`: an existing key has its value replaced, the usage
counter adjusted by the size delta and its entry moved to the most-recent position; a new key
is inserted at the most-recent position and the counter grows by the entry's size; then the
eviction loop runs. The size of an entry is the size its value wrapper reports (`Len`, the
byte length of the payload, which the spec names as the figure used for budget accounting). -/
def Cache.Add (c : Cache) (key : String) (value : ByteView) : Cache :=
  let c1 : Cache :=
    match c.ll.find? (fun e => e.key = key) with
    | some e =>
      { c with
        ll := ⟨key, value⟩ :: c.ll.filter (fun x => x.key ≠ key)
        nbytes := c.nbytes + (value.Len - e.value.Len) }
    | none => { c with ll := ⟨key, value⟩ :: c.ll, nbytes := c.nbytes + value.Len }
  Cache.evict c1.ll.length c1

end lru

namespace pb

/-- The message `pb.Request` as `getFromPeer` fills it (package `GoCache/pb` is generated
code; only the two fields set by the caller are used). -/
structure Request where
  Group : String
  Key : String
deriving DecidableEq, Repr

end pb

namespace GoCache

/-- The struct `cache` without its mutex: the lazily constructed shard and the budget. -/
structure cache where
  lru : Option lru.Cache
  nbytes : Int
deriving DecidableEq, Repr

/-- The method `cache.add`. -/
def cache.add (c : cache) (key : String) (value : ByteView) : cache :=
  let l : lru.Cache :=
    match c.lru with
    | none => lru.New c.nbytes
    | some l => l
  { c with lru := some (l.Add key value) }

/-- The method `cache.get`: the value, the hit flag and the facade as it is left. -/
def cache.get (c : cache) (key : String) : (ByteView × Bool) × cache :=
  match c.lru with
  | none => ((⟨[]⟩, false), c)
  | some l =>
    match l.Get key with
    | (some v, l1) => ((v, true), { c with lru := some l1 })
    | (none, l1) => ((⟨[]⟩, false), { c with lru := some l1 })

/-- The interface `Getter`: `Get(key string) ([]byte, error)`. -/
abbrev Getter := String → Except Error (List UInt8)

/-- The interface `PeerGetter`: `Get(in *pb.Request, out *pb.Response) error`; on success the
bytes are the `Value` field written to `out`. -/
abbrev PeerGetter := pb.Request → Except Error (List UInt8)

/-- The interface `PeerPicker`: `PickPeer(key string) (peer PeerGetter, ok bool)`; `none` is
`ok = false`. -/
abbrev PeerPicker := String → Option PeerGetter

/-- The struct `Group`. The single-flight coordinator holds no record between calls and is
represented by `singleflightDo` below. -/
structure Group where
  name : String
  getter : Getter
  mainCache : cache
  peers : Option PeerPicker

/-- The calls a request makes outside the Group's own code, in the order they are made. -/
inductive Event where
  | cacheGet (key : String)
  | cacheAdd (key : String) (value : ByteView)
  | getterGet (key : String)
  | pickPeer (key : String)
  | peerGet (req : pb.Request)
  | flightDo (key : String)
deriving DecidableEq, Repr

/-- The named results `value` and `err` of `load`, which its closure assigns. -/
structure LoadVars where
  value : ByteView
  err : Option Error

/-- What a method returns and leaves behind: its two results, the Group afterwards and the
calls it made. -/
structure Ret where
  value : ByteView
  err : Option Error
  g : Group
  trace : List Event

/-- Modelled from the spec: `singleflight.Group.Do` (package `GoCache/singleflight`, not part
of the sources at hand) for a caller that finds no in-flight record for its key, which is
every caller of a sequential execution: the record is created, the load function is invoked
synchronously on the calling thread, and its result or error is returned. -/
def singleflightDo {σ α : Type} (_key : String) (fn : σ → α × σ) (s : σ) : α × σ :=
  fn s

/-- The method `populateCache`. -/
def Group.populateCache (g : Group) (key : String) (value : ByteView) : Group × List Event :=
  ({ g with mainCache := g.mainCache.add key value }, [Event.cacheAdd key value])

/-- The method `getLocally`. -/
def Group.getLocally (g : Group) (key : String) : Ret :=
  match g.getter key with
  | .error err => { value := ⟨[]⟩, err := some err, g := g, trace := [Event.getterGet key] }
  | .ok bytes =>
    let value : ByteView := { b := cloneBytes bytes }
    let (g1, tr) := g.populateCache key value
    { value := value, err := none, g := g1, trace := Event.getterGet key :: tr }

/-- The method `getFromPeer`. -/
def Group.getFromPeer (g : Group) (peer : PeerGetter) (key : String) :
    ByteView × Option Error × List Event :=
  let req : pb.Request := { Group := g.name, Key := key }
  match peer req with
  | .error err => (⟨[]⟩, some err, [Event.peerGet req])
  | .ok resValue => ({ b := resValue }, none, [Event.peerGet req])

/-- The closure that `load` hands to the single-flight coordinator. It runs on the Group, the
named results of `load` and the trace so far, and returns what the closure returns. -/
def Group.loadFn (key : String) (s : Group × LoadVars × List Event) :
    (ByteView × Option Error) × (Group × LoadVars × List Event) :=
  let (g, vars, tr) := s
  let local1 (vars1 : LoadVars) (tr1 : List Event) :=
    let r := g.getLocally key
    ((r.value, r.err), (r.g, vars1, tr1 ++ r.trace))
  match g.peers with
  | none => local1 vars tr
  | some peers =>
    match peers key with
    | none => local1 vars (tr ++ [Event.pickPeer key])
    | some peer =>
      let (value, err, tr1) := g.getFromPeer peer key
      let vars1 : LoadVars := { value := value, err := err }
      if err = none then
        ((value, none), (g, vars1, tr ++ [Event.pickPeer key] ++ tr1))
      else
        local1 vars1 (tr ++ [Event.pickPeer key] ++ tr1)

/-- The method `load`. -/
def Group.load (g : Group) (key : String) : Ret :=
  let vars0 : LoadVars := { value := ⟨[]⟩, err := none }
  let ((viewi, err), (g1, vars1, tr)) :=
    singleflightDo key (Group.loadFn key) (g, vars0, [Event.flightDo key])
  if err = none then
    { value := viewi, err := none, g := g1, trace := tr }
  else
    { value := vars1.value, err := err, g := g1, trace := tr }

/-- The method `Group.Get`. -/
def Group.Get (g : Group) (key : String) : Ret :=
  if key = "" then
    { value := ⟨[]⟩, err := some "key is required", g := g, trace := [] }
  else
    match g.mainCache.get key with
    | ((v, true), c1) =>
      { value := v, err := none, g := { g with mainCache := c1 }, trace := [Event.cacheGet key] }
    | ((_, false), c1) =>
      let r := Group.load { g with mainCache := c1 } key
      { r with trace := Event.cacheGet key :: r.trace }

/-- Calls of the loader `g.getter.Get`. -/
def Event.isLoaderCall : Event → Bool
  | .getterGet _ => true
  | _ => false

/-- Calls of the peer router `g.peers.PickPeer`. -/
def Event.isPickPeer : Event → Bool
  | .pickPeer _ => true
  | _ => false

/-- Calls of a peer transport `peer.Get`. -/
def Event.isPeerGet : Event → Bool
  | .peerGet _ => true
  | _ => false

/-- Calls of `g.mainCache.add`. -/
def Event.isCacheAdd : Event → Bool
  | .cacheAdd _ _ => true
  | _ => false

/-- Calls of `g.mainCache.get`. -/
def Event.isCacheGet : Event → Bool
  | .cacheGet _ => true
  | _ => false

/-- A sample Group without a peer router: the loader knows the key "Tom" only. -/
def sampleGroup : Group :=
  { name := "scores"
    getter := fun k => if k = "Tom" then .ok [54, 51] else .error "not exist"
    mainCache := { lru := none, nbytes := 2048 }
    peers := none }

/-- A sample Group whose router always picks a peer that answers with the byte 86. -/
def sampleGroupPeerOk : Group :=
  { sampleGroup with peers := some (fun _ => some (fun _ => .ok [86])) }

/-- A sample Group whose router always picks a peer whose transport fails. -/
def sampleGroupPeerDown : Group :=
  { sampleGroup with peers := some (fun _ => some (fun _ => .error "unreachable")) }

/-- A sample Group whose shard already holds the key "Tom". -/
def sampleGroupWarm : Group :=
  { sampleGroup with mainCache := sampleGroup.mainCache.add "Tom" ⟨[54, 51]⟩ }

/-- The method `RegisterPeers`. The argument is an interface value and may be nil (`none`);
the panic value, if the call panics, comes first, then the Group as it is left. -/
def Group.RegisterPeers (g : Group) (peers : Option PeerPicker) : Option String × Group :=
  match g.peers with
  | some _ => (some "RegisterPeerPicker called more than once", g)
  | none => (none, { g with peers := peers })

/-- The package-level state of `gocache.go` without its lock: the Groups allocated so far (a
`*Group` is an index into `heap`) and the map `groups` from names to `*Group`. -/
structure Registry where
  heap : List Group
  groups : String → Option Nat

/-- The initial package state: `groups = make(map[string]*Group)`. -/
def Registry.init : Registry :=
  { heap := [], groups := fun _ => none }

/-- The function `NewGroup`: the returned pointer (`none` when the call panics with
"nil Getter") and the package state afterwards. -/
def NewGroup (w : Registry) (name : String) (cacheBytes : Int) (getter : Option Getter) :
    Option Nat × Registry :=
  match getter with
  | none => (none, w)
  | some gt =>
    let g : Group :=
      { name := name, mainCache := { lru := none, nbytes := cacheBytes }, getter := gt,
        peers := none }
    (some w.heap.length,
      { heap := w.heap ++ [g]
        groups := fun n => if n = name then some w.heap.length else w.groups n })

/-- The function `GetGroup`: the pointer stored under `name`, `none` for nil. -/
def GetGroup (w : Registry) (name : String) : Option Nat :=
  w.groups name

/-- A finite sequence of `NewGroup` calls with non-nil loaders, from a given package state. -/
def NewGroups (w : Registry) (calls : List (String × Int × Getter)) : Registry :=
  calls.foldl (fun acc c => (NewGroup acc c.1 c.2.1 (some c.2.2)).2) w

/-- A Go slice of bytes: its backing array (an index into the heap of arrays), the offset of
its first element in that array and its length. -/
structure Slice where
  arr : Nat
  off : Nat
  len : Nat
deriving DecidableEq, Repr

/-- The backing arrays allocated so far. -/
abbrev Heap := List (List UInt8)

/-- The content of a slice: `len` elements of its backing array from `off` on. -/
def Heap.read (h : Heap) (s : Slice) : List UInt8 :=
  ((h.getD s.arr []).drop s.off).take s.len

/-- A slice is well formed in a heap when it is empty (as the nil slice is) or lies within an
allocated array. -/
def Slice.valid (h : Heap) (s : Slice) : Prop :=
  s.len = 0 ∨ (s.arr < h.length ∧ s.off + s.len ≤ (h.getD s.arr []).length)

/-- The assignment `s[i] = x`; an index outside `[0, len(s))` panics and writes nothing. -/
def Heap.write (h : Heap) (s : Slice) (i : Nat) (x : UInt8) : Heap :=
  if i < s.len then h.set s.arr ((h.getD s.arr []).set (s.off + i) x) else h

/-- A finite sequence of assignments to elements of the slice `s`. -/
def Heap.writes (h : Heap) (s : Slice) (ws : List (Nat × UInt8)) : Heap :=
  ws.foldl (fun acc w => acc.write s w.1 w.2) h

/-- The builtin `copy(dst, src)`: the first `min(len(dst), len(src))` elements of `src`
overwrite those of `dst`. -/
def Heap.copy (h : Heap) (dst src : Slice) : Heap :=
  let xs := (h.read src).take dst.len
  let a := h.getD dst.arr []
  h.set dst.arr (a.take dst.off ++ xs ++ a.drop (dst.off + xs.length))

/-- The function `cloneBytes` on the heap: `c := make([]byte, len(b))` allocates a fresh
zeroed array, `copy(c, b)` fills it, and `c` is returned. -/
def cloneBytesRef (h : Heap) (b : Slice) : Slice × Heap :=
  let c : Slice := { arr := h.length, off := 0, len := b.len }
  let h1 : Heap := h ++ [List.replicate b.len 0]
  (c, h1.copy c b)

/-- The struct `ByteView` with its field as a slice into the heap. -/
structure ByteViewRef where
  b : Slice
deriving DecidableEq, Repr

/-- The method `ByteView.Len` on the heap model. -/
def ByteViewRef.Len (v : ByteViewRef) : Nat :=
  v.b.len

/-- The method `ByteView.ByteSlice` on the heap model. -/
def ByteViewRef.ByteSlice (v : ByteViewRef) (h : Heap) : Slice × Heap :=
  cloneBytesRef h v.b

/-- A call on the cache facade: `add(key, value)` or `get(key)`. -/
inductive cacheOp where
  | add (key : String) (value : ByteView)
  | get (key : String)
deriving DecidableEq, Repr

/-- The facade after one call. -/
def cache.step (c : cache) : cacheOp → cache
  | .add key value => c.add key value
  | .get key => (c.get key).2

/-- The facade after a finite sequence of calls. -/
def cache.run (c : cache) (ops : List cacheOp) : cache :=
  ops.foldl cache.step c

/-- The sum of the sizes of the entries a shard holds. -/
def shardBytes (l : lru.Cache) : Int :=
  (l.ll.map (fun e => e.value.Len)).sum

/-- The sum of the sizes of the entries held behind the facade (none before the shard is
constructed). -/
def cache.heldBytes (c : cache) : Int :=
  match c.lru with
  | none => 0
  | some l => shardBytes l

/-- The shard invariant behind the budget: the usage counter is the sum of the entry sizes
and the keys are distinct. -/
def ShardOk (l : lru.Cache) : Prop :=
  l.nbytes = shardBytes l ∧ (l.ll.map (fun x => x.key)).Nodup

/-- The facade invariant for a budget: the budget is the one configured, and a constructed
shard carries it, satisfies the shard invariant and is within it. -/
def FacadeOk (budget : Int) (c : cache) : Prop :=
  c.nbytes = budget ∧
    ∀ l, c.lru = some l → ShardOk l ∧ l.maxBytes = budget ∧ shardBytes l ≤ budget

end GoCache

/-! ## Theorems: the ring -/

namespace sort

/-- Binary search with enough iterations returns the boundary of a predicate that is
monotone on `[0, n)`: everything below the result fails, everything from it up to `n` holds. -/
theorem searchLoop_spec (f : Nat → Bool) (n : Nat)
    (hmono : ∀ a b, a ≤ b → b < n → f a = true → f b = true) :
    ∀ fuel i j, i ≤ j → j ≤ n → j - i ≤ fuel →
      (∀ k, k < i → f k = false) → (∀ k, j ≤ k → k < n → f k = true) →
      i ≤ searchLoop f fuel i j ∧ searchLoop f fuel i j ≤ j ∧
      (∀ k, k < searchLoop f fuel i j → f k = false) ∧
      (∀ k, searchLoop f fuel i j ≤ k → k < n → f k = true) := by
  intro fuel
  induction fuel with
  | zero =>
    intro i j hij _ hfuel hlo hhi
    have hji : j = i := by omega
    subst hji
    simp only [searchLoop]
    exact ⟨le_refl _, le_refl _, hlo, hhi⟩
  | succ fuel ih =>
    intro i j hij hjn hfuel hlo hhi
    simp only [searchLoop]
    by_cases hlt : i < j
    · rw [if_pos hlt]
      have hh1 : i ≤ (i + j) / 2 := by omega
      have hh2 : (i + j) / 2 < j := by omega
      cases hf : f ((i + j) / 2) with
      | false =>
        simp only [Bool.not_false, if_true]
        have hlo2 : ∀ k, k < (i + j) / 2 + 1 → f k = false := by
          intro k hk
          cases hfk : f k with
          | false => rfl
          | true =>
            have := hmono k ((i + j) / 2) (by omega) (by omega) hfk
            rw [hf] at this
            exact absurd this (by simp)
        obtain ⟨h1, h2, h3, h4⟩ := ih ((i + j) / 2 + 1) j (by omega) hjn (by omega) hlo2 hhi
        exact ⟨by omega, h2, h3, h4⟩
      | true =>
        simp only [Bool.not_true, Bool.false_eq_true, if_false]
        have hhi2 : ∀ k, (i + j) / 2 ≤ k → k < n → f k = true := by
          intro k hk hkn
          exact hmono _ k hk hkn hf
        obtain ⟨h1, h2, h3, h4⟩ := ih i ((i + j) / 2) hh1 (by omega) (by omega) hlo hhi2
        exact ⟨h1, by omega, h3, h4⟩
    · rw [if_neg hlt]
      have hji : j = i := by omega
      subst hji
      exact ⟨le_refl _, le_refl _, hlo, hhi⟩

/-- The contract of `sort.Search` for a predicate monotone on `[0, n)`. -/
theorem Search_spec (f : Nat → Bool) (n : Nat)
    (hmono : ∀ a b, a ≤ b → b < n → f a = true → f b = true) :
    Search n f ≤ n ∧ (∀ k, k < Search n f → f k = false) ∧
      (∀ k, Search n f ≤ k → k < n → f k = true) := by
  obtain ⟨_, h2, h3, h4⟩ := searchLoop_spec f n hmono n 0 n (Nat.zero_le _) (le_refl _)
    (by omega) (fun k hk => absurd hk (Nat.not_lt_zero _)) (fun k hk hkn => absurd hkn (by omega))
  exact ⟨h2, h3, h4⟩

end sort

namespace consistenthash

/-- The closure handed to `sort.Search` by `Get` is monotone on a sorted ring. -/
theorem Get_pred_mono (keys : List Int) (h : Int) (hs : keys.Sorted (· ≤ ·)) :
    ∀ a b, a ≤ b → b < keys.length →
      decide (keys.getD a 0 ≥ h) = true → decide (keys.getD b 0 ≥ h) = true := by
  intro a b hab hb ha
  have ha2 : a < keys.length := by omega
  rw [List.getD_eq_getElem _ _ ha2] at ha
  rw [List.getD_eq_getElem _ _ hb]
  simp only [ge_iff_le, decide_eq_true_eq] at ha ⊢
  rcases Nat.eq_or_lt_of_le hab with heq | hlt
  · subst heq; exact ha
  · have := (List.pairwise_iff_getElem.mp hs) a b ha2 hb hlt
    omega

/-- On a non-empty ring `Get` reads the map at `keys[idx % len(keys)]`. -/
theorem Get_eq (m : Map) (key : String) (hne : m.keys ≠ []) :
    (m.Get key).1 = m.lookup (m.keys.getD (m.searchIdx key % m.keys.length) 0) := by
  have hlen : m.keys.length ≠ 0 := by
    intro h; exact hne (List.length_eq_zero.mp h)
  simp [Map.Get, hlen, Map.searchIdx]

/-- The head of a non-empty list is its element at index 0. -/
theorem head_eq_first (l : List Int) (hne : l ≠ []) (hpos : 0 < l.length) :
    l.head hne = l[0] := by
  cases l with
  | nil => exact absurd rfl hne
  | cons a t => rfl

/-- C1: on a non-empty ring sorted ascending, when some ring value is at least the hash of
the key, `Get` returns the map entry of the smallest ring value that is at least the hash. -/
theorem Get_successor (m : Map) (k : String) (v : Int)
    (hne : m.keys ≠ []) (hs : m.keys.Sorted (· ≤ ·))
    (hv : v ∈ m.keys) (hge : m.hashInt k ≤ v)
    (hmin : ∀ w ∈ m.keys, m.hashInt k ≤ w → v ≤ w) :
    (m.Get k).1 = m.lookup v := by
  rw [Get_eq m k hne]
  obtain ⟨hle, hlo, hhi⟩ := sort.Search_spec
    (fun i => decide (m.keys.getD i 0 ≥ m.hashInt k)) m.keys.length
    (Get_pred_mono m.keys (m.hashInt k) hs)
  have hidx : m.searchIdx k < m.keys.length := by
    by_contra hcon
    obtain ⟨n, hn, hnv⟩ := List.getElem_of_mem hv
    have hf := hlo n (by unfold Map.searchIdx at hcon; omega)
    simp only [List.getD_eq_getElem _ _ hn, hnv, ge_iff_le, decide_eq_false_iff_not] at hf
    exact hf hge
  rw [Nat.mod_eq_of_lt hidx, List.getD_eq_getElem _ _ hidx]
  congr 1
  have hhit := hhi (m.searchIdx k) (le_refl _) hidx
  simp only [List.getD_eq_getElem _ _ hidx, ge_iff_le, decide_eq_true_eq] at hhit
  have h1 : v ≤ m.keys[m.searchIdx k] := hmin _ (List.getElem_mem _) hhit
  have h2 : m.keys[m.searchIdx k] ≤ v := by
    obtain ⟨n, hn, hnv⟩ := List.getElem_of_mem hv
    have hnge : m.searchIdx k ≤ n := by
      by_contra hcon
      have hf := hlo n (by unfold Map.searchIdx at hcon; omega)
      simp only [List.getD_eq_getElem _ _ hn, hnv, ge_iff_le, decide_eq_false_iff_not] at hf
      exact hf hge
    rcases Nat.eq_or_lt_of_le hnge with heq | hlt
    · subst hnv; simp [heq]
    · have := (List.pairwise_iff_getElem.mp hs) _ n hidx hn hlt
      omega
  omega

/-- Witness of C1: the key "abc" hashes to 3 and resolves to the entry of ring value 5. -/
theorem Get_successor_witness : (sampleRing.Get "abc").1 = sampleRing.lookup 5 :=
  Get_successor sampleRing "abc" 5 (by decide) (by decide) (by decide) (by decide) (by decide)

/-- C2: on a non-empty ring sorted ascending, a key whose hash is strictly greater than every
ring value resolves to the map entry of `keys[0]`, the smallest virtual-node hash. -/
theorem Get_wraps (m : Map) (k : String)
    (hne : m.keys ≠ []) (hs : m.keys.Sorted (· ≤ ·))
    (hgt : ∀ w ∈ m.keys, w < m.hashInt k) :
    (m.Get k).1 = m.lookup (m.keys.head hne) ∧ ∀ w ∈ m.keys, m.keys.head hne ≤ w := by
  rw [Get_eq m k hne]
  obtain ⟨hle, hlo, hhi⟩ := sort.Search_spec
    (fun i => decide (m.keys.getD i 0 ≥ m.hashInt k)) m.keys.length
    (Get_pred_mono m.keys (m.hashInt k) hs)
  have hpos : 0 < m.keys.length := List.length_pos.mpr hne
  have hidx : m.searchIdx k = m.keys.length := by
    by_contra hcon
    have hlt : m.searchIdx k < m.keys.length := by
      unfold Map.searchIdx at hcon ⊢; omega
    have hhit := hhi (m.searchIdx k) (le_refl _) hlt
    simp only [List.getD_eq_getElem _ _ hlt, ge_iff_le, decide_eq_true_eq] at hhit
    have := hgt _ (List.getElem_mem hlt)
    omega
  have hhead : m.keys.head hne = m.keys[0] := head_eq_first m.keys hne hpos
  refine ⟨?_, ?_⟩
  · rw [hidx, Nat.mod_self, List.getD_eq_getElem _ _ hpos, hhead]
  · intro w hw
    obtain ⟨n, hn, hnv⟩ := List.getElem_of_mem hw
    rw [hhead, ← hnv]
    rcases Nat.eq_zero_or_pos n with h0 | hp
    · subst h0; exact le_refl _
    · exact (List.pairwise_iff_getElem.mp hs) 0 n hpos hn hp

/-- Witness of C2: the key "abcdefg" hashes to 7, above both ring values, and wraps to 1. -/
theorem Get_wraps_witness :
    (sampleRing.Get "abcdefg").1 = sampleRing.lookup (sampleRing.keys.head (by decide)) ∧
      ∀ w ∈ sampleRing.keys, sampleRing.keys.head (by decide) ≤ w :=
  Get_wraps sampleRing "abcdefg" (by decide) (by decide) (by decide)

/-- The hash of a string depends on the ring only through its hash function. -/
theorem hashInt_congr (m1 m : Map) (h : m1.hash = m.hash) (s : String) :
    m1.hashInt s = m.hashInt s := by
  simp [Map.hashInt, h]

/-- The virtual nodes of a peer depend on the ring only through hash and replicas. -/
theorem nodesOf_congr (m1 m : Map) (hh : m1.hash = m.hash) (hr : m1.replicas = m.replicas)
    (p : String) : m1.nodesOf p = m.nodesOf p := by
  simp [Map.nodesOf, Map.hashInt, hh, hr]

/-- The inner loop of `Add` over any list of replica indices. -/
theorem addReplica_foldl (key : String) : ∀ (is : List Nat) (m : Map),
    (is.foldl (fun acc i => acc.addReplica key i) m).hash = m.hash ∧
    (is.foldl (fun acc i => acc.addReplica key i) m).replicas = m.replicas ∧
    (is.foldl (fun acc i => acc.addReplica key i) m).keys =
      m.keys ++ is.map (fun i : Nat => m.hashInt (toString i ++ key)) ∧
    (∀ k, k ∈ is.map (fun i : Nat => m.hashInt (toString i ++ key)) →
      (is.foldl (fun acc i => acc.addReplica key i) m).hashMap k = some key) ∧
    (∀ k, k ∉ is.map (fun i : Nat => m.hashInt (toString i ++ key)) →
      (is.foldl (fun acc i => acc.addReplica key i) m).hashMap k = m.hashMap k) := by
  intro is
  induction is with
  | nil => intro m; simp
  | cons i is ih =>
    intro m
    obtain ⟨h1, h2, h3, h4, h5⟩ := ih (m.addReplica key i)
    have hh : (m.addReplica key i).hash = m.hash := rfl
    have hf : (fun j : Nat => (m.addReplica key i).hashInt (toString j ++ key)) =
        (fun j : Nat => m.hashInt (toString j ++ key)) := by
      funext j; exact hashInt_congr _ _ hh _
    rw [hf] at h3 h4 h5
    simp only [List.foldl_cons, List.map_cons, List.mem_cons, not_or]
    refine ⟨h1, h2, ?_, ?_, ?_⟩
    · rw [h3]; simp [Map.addReplica]
    · intro k hk
      by_cases hin : k ∈ is.map (fun j : Nat => m.hashInt (toString j ++ key))
      · exact h4 k hin
      · rw [h5 k hin]
        rcases hk with hk | hk
        · simp [Map.addReplica, hk]
        · exact absurd hk hin
    · intro k hk
      rw [h5 k hk.2]
      simp [Map.addReplica, hk.1]

/-- The inner loop of `Add` for one peer. -/
theorem addKey_spec (m : Map) (key : String) :
    (m.addKey key).hash = m.hash ∧ (m.addKey key).replicas = m.replicas ∧
    (m.addKey key).keys = m.keys ++ m.nodesOf key ∧
    (∀ k, k ∈ m.nodesOf key → (m.addKey key).hashMap k = some key) ∧
    (∀ k, k ∉ m.nodesOf key → (m.addKey key).hashMap k = m.hashMap k) :=
  addReplica_foldl key (List.range m.replicas.toNat) m

/-- Both loops of `Add`, before the sort. -/
theorem addKey_foldl : ∀ (ps : List String) (m : Map),
    (ps.foldl (fun acc key => acc.addKey key) m).hash = m.hash ∧
    (ps.foldl (fun acc key => acc.addKey key) m).replicas = m.replicas ∧
    (ps.foldl (fun acc key => acc.addKey key) m).keys = m.keys ++ m.virtualNodes ps ∧
    (∀ k, k ∈ m.virtualNodes ps → ∃ p, p ∈ ps ∧ k ∈ m.nodesOf p ∧
      (ps.foldl (fun acc key => acc.addKey key) m).hashMap k = some p) ∧
    (∀ k, k ∉ m.virtualNodes ps →
      (ps.foldl (fun acc key => acc.addKey key) m).hashMap k = m.hashMap k) := by
  intro ps
  induction ps with
  | nil => intro m; simp [Map.virtualNodes]
  | cons p ps ih =>
    intro m
    obtain ⟨a1, a2, a3, a4, a5⟩ := addKey_spec m p
    obtain ⟨h1, h2, h3, h4, h5⟩ := ih (m.addKey p)
    have hv : (m.addKey p).virtualNodes ps = m.virtualNodes ps := by
      simp only [Map.virtualNodes]
      congr 1
      funext q; exact nodesOf_congr _ _ a1 a2 q
    rw [hv] at h3 h4 h5
    have hcons : m.virtualNodes (p :: ps) = m.nodesOf p ++ m.virtualNodes ps := by
      simp [Map.virtualNodes]
    simp only [List.foldl_cons]
    rw [hcons]
    refine ⟨h1.trans a1, h2.trans a2, ?_, ?_, ?_⟩
    · rw [h3, a3, List.append_assoc]
    · intro k hk
      by_cases hin : k ∈ m.virtualNodes ps
      · obtain ⟨q, hq, hkq, hmap⟩ := h4 k hin
        refine ⟨q, List.mem_cons_of_mem _ hq, ?_, hmap⟩
        rw [← nodesOf_congr _ _ a1 a2 q]; exact hkq
      · have hkp : k ∈ m.nodesOf p := by
          rcases List.mem_append.mp hk with h | h
          · exact h
          · exact absurd h hin
        exact ⟨p, List.mem_cons_self _ _, hkp, by rw [h5 k hin]; exact a4 k hkp⟩
    · intro k hk
      have hk1 : k ∉ m.nodesOf p := fun h => hk (List.mem_append.mpr (Or.inl h))
      have hk2 : k ∉ m.virtualNodes ps := fun h => hk (List.mem_append.mpr (Or.inr h))
      rw [h5 k hk2]; exact a5 k hk1

/-- The number of virtual nodes computed for `ps`. -/
theorem virtualNodes_length (m : Map) (ps : List String) :
    (m.virtualNodes ps).length = m.replicas.toNat * ps.length := by
  induction ps with
  | nil => simp [Map.virtualNodes]
  | cons p ps ih =>
    have hcons : m.virtualNodes (p :: ps) = m.nodesOf p ++ m.virtualNodes ps := by
      simp [Map.virtualNodes]
    rw [hcons, List.length_append, ih]
    simp [Map.nodesOf, Nat.mul_succ, Nat.add_comm]

/-- C9: with a replication factor `r ≥ 0`, after `Add(ps...)` the keys list is a permutation of
the old keys together with the values `int(hash(itoa(i) + p))` for `p` in `ps` and `i` in
`[0, r)`, so its length grows by `r * len(ps)`; the map sends each of those values to a peer
of `ps` that produced it (for some replica index below `r`), and every other map entry is as
before. -/
theorem Add_virtual_nodes (m : Map) (ps : List String) (hr : 0 ≤ m.replicas) :
    List.Perm (m.Add ps).keys (m.keys ++ m.virtualNodes ps) ∧
    ((m.Add ps).keys.length : Int) = (m.keys.length : Int) + m.replicas * (ps.length : Int) ∧
    (∀ v, v ∈ m.virtualNodes ps → ∃ p, p ∈ ps ∧
      (∃ i : Nat, (i : Int) < m.replicas ∧ v = m.hashInt (toString i ++ p)) ∧
      (m.Add ps).hashMap v = some p) ∧
    (∀ k, k ∉ m.virtualNodes ps → (m.Add ps).hashMap k = m.hashMap k) := by
  obtain ⟨_, _, h3, h4, h5⟩ := addKey_foldl ps m
  have hkeys : (m.Add ps).keys = sort.Ints (m.keys ++ m.virtualNodes ps) := by
    simp only [Map.Add]; rw [h3]
  have hmap : (m.Add ps).hashMap = (ps.foldl (fun acc key => acc.addKey key) m).hashMap := rfl
  refine ⟨?_, ?_, ?_, ?_⟩
  · rw [hkeys]; exact List.perm_insertionSort _ _
  · rw [hkeys]
    simp only [sort.Ints, List.length_insertionSort, List.length_append, virtualNodes_length]
    push_cast
    rw [Int.toNat_of_nonneg hr]
  · intro v hv
    obtain ⟨p, hp, hvp, hm⟩ := h4 v hv
    refine ⟨p, hp, ?_, by rw [hmap]; exact hm⟩
    simp only [Map.nodesOf, List.mem_map, List.mem_range] at hvp
    obtain ⟨i, hi, hiv⟩ := hvp
    exact ⟨i, by omega, hiv.symm⟩
  · intro k hk
    rw [hmap]; exact h5 k hk

/-- Witness of C9: adding the peers "p" and "qq" to the sample ring (one replica each). -/
theorem Add_virtual_nodes_witness :
    List.Perm (sampleRing.Add ["p", "qq"]).keys
      (sampleRing.keys ++ sampleRing.virtualNodes ["p", "qq"]) ∧
    (((sampleRing.Add ["p", "qq"]).keys.length : Int) =
      (sampleRing.keys.length : Int) + sampleRing.replicas * ((["p", "qq"] : List String).length : Int)) ∧
    (∀ v, v ∈ sampleRing.virtualNodes ["p", "qq"] → ∃ p, p ∈ ["p", "qq"] ∧
      (∃ i : Nat, (i : Int) < sampleRing.replicas ∧ v = sampleRing.hashInt (toString i ++ p)) ∧
      (sampleRing.Add ["p", "qq"]).hashMap v = some p) ∧
    (∀ k, k ∉ sampleRing.virtualNodes ["p", "qq"] →
      (sampleRing.Add ["p", "qq"]).hashMap k = sampleRing.hashMap k) :=
  Add_virtual_nodes sampleRing ["p", "qq"] (by decide)

/-- The keys list is sorted after `Add`. -/
theorem Add_sorted (m : Map) (ps : List String) : (m.Add ps).keys.Sorted (· ≤ ·) := by
  simp only [Map.Add, sort.Ints]
  exact List.sorted_insertionSort _ _

/-- The method `Get` returns its receiver as it found it. -/
theorem Get_state (m : Map) (key : String) : (m.Get key).2 = m := by
  unfold Map.Get
  split <;> rfl

/-- C10: every ring obtained from `New` by a finite sequence of `Add` calls has its keys list
sorted ascending, and `Get` leaves the keys list as it is. -/
theorem ring_sorted (replicas : Int) (fn : Option Hash) (crc : Hash)
    (calls : List (List String)) (key : String) :
    ((New replicas fn crc).AddAll calls).keys.Sorted (· ≤ ·) ∧
    (((New replicas fn crc).AddAll calls).Get key).2.keys =
      ((New replicas fn crc).AddAll calls).keys := by
  refine ⟨?_, by rw [Get_state]⟩
  induction calls using List.reverseRecOn with
  | nil => simp [Map.AddAll, New]
  | append_singleton cs c _ =>
    simp only [Map.AddAll, List.foldl_append, List.foldl_cons, List.foldl_nil]
    exact Add_sorted _ _

end consistenthash

/-! ## Theorems: the Group -/

namespace GoCache

/-- The copy made by `cloneBytes` has the content of its argument. -/
theorem cloneBytes_eq (b : List UInt8) : cloneBytes b = b := by
  unfold cloneBytes
  induction b with
  | nil => rfl
  | cons x xs ih => simp [List.replicate_succ, ih]

/-- A miss of the eviction shard leaves it as it was. -/
theorem lru_Get_miss (l : lru.Cache) (key : String) (h : (l.Get key).1 = none) :
    l.Get key = (none, l) := by
  unfold lru.Cache.Get at h ⊢
  split
  · rfl
  · rename_i e he
    rw [he] at h
    simp at h

/-- A miss of the cache facade leaves it as it was and yields the zero `ByteView`. -/
theorem cache_get_miss (c : cache) (key : String) (h : (c.get key).1.2 = false) :
    c.get key = ((⟨[]⟩, false), c) := by
  unfold cache.get at h ⊢
  cases hl : c.lru with
  | none => rfl
  | some l =>
    simp only [hl] at h ⊢
    cases hg : (l.Get key).1 with
    | none =>
      rw [lru_Get_miss l key hg]
      cases c
      simp_all
    | some v =>
      have : l.Get key = (some v, (l.Get key).2) := by rw [← hg]
      rw [this] at h
      simp at h

/-- On a non-empty key that misses locally, `Get` is `load` after the cache lookup. -/
theorem Get_of_miss (g : Group) (key : String) (hkey : key ≠ "")
    (hmiss : (g.mainCache.get key).1.2 = false) :
    g.Get key = { g.load key with trace := Event.cacheGet key :: (g.load key).trace } := by
  unfold Group.Get
  rw [if_neg hkey, cache_get_miss _ _ hmiss]

/-- The closure of `load` when no remote peer is picked: it is `getLocally`. -/
theorem loadFn_local (g : Group) (key : String) (vars : LoadVars) (tr : List Event)
    (hpeer : ∀ pk, g.peers = some pk → pk key = none) :
    Group.loadFn key (g, vars, tr) =
      (((g.getLocally key).value, (g.getLocally key).err),
        ((g.getLocally key).g, vars,
          tr ++ (match g.peers with | none => [] | some _ => [Event.pickPeer key]) ++
            (g.getLocally key).trace)) := by
  cases hp : g.peers with
  | none => simp [Group.loadFn, hp]
  | some pk => simp [Group.loadFn, hp, hpeer pk hp]

/-- The method `getLocally` when the loader succeeds. -/
theorem getLocally_ok (g : Group) (key : String) (B : List UInt8) (h : g.getter key = .ok B) :
    g.getLocally key =
      { value := ⟨B⟩, err := none, g := { g with mainCache := g.mainCache.add key ⟨B⟩ },
        trace := [Event.getterGet key, Event.cacheAdd key ⟨B⟩] } := by
  simp [Group.getLocally, h, Group.populateCache, cloneBytes_eq]

/-- The method `getLocally` when the loader fails. -/
theorem getLocally_error (g : Group) (key : String) (e : Error) (h : g.getter key = .error e) :
    g.getLocally key =
      { value := ⟨[]⟩, err := some e, g := g, trace := [Event.getterGet key] } := by
  simp [Group.getLocally, h]

/-- The method `getFromPeer` when the transport succeeds. -/
theorem getFromPeer_ok (g : Group) (peer : PeerGetter) (key : String) (V : List UInt8)
    (h : peer { Group := g.name, Key := key } = .ok V) :
    g.getFromPeer peer key = (⟨V⟩, none, [Event.peerGet { Group := g.name, Key := key }]) := by
  simp [Group.getFromPeer, h]

/-- The method `getFromPeer` when the transport fails. -/
theorem getFromPeer_error (g : Group) (peer : PeerGetter) (key : String) (e : Error)
    (h : peer { Group := g.name, Key := key } = .error e) :
    g.getFromPeer peer key =
      (⟨[]⟩, some e, [Event.peerGet { Group := g.name, Key := key }]) := by
  simp [Group.getFromPeer, h]

/-- The method `load` when no remote peer is picked. -/
theorem load_local (g : Group) (key : String)
    (hpeer : ∀ pk, g.peers = some pk → pk key = none) :
    g.load key =
      { value := if (g.getLocally key).err = none then (g.getLocally key).value else ⟨[]⟩
        err := (g.getLocally key).err
        g := (g.getLocally key).g
        trace := [Event.flightDo key] ++
          (match g.peers with | none => [] | some _ => [Event.pickPeer key]) ++
          (g.getLocally key).trace } := by
  simp only [Group.load, singleflightDo, loadFn_local g key _ _ hpeer]
  split <;> simp_all

/-- The method `load` when the picked peer answers. -/
theorem load_remote (g : Group) (key : String) (pk : PeerPicker) (peer : PeerGetter)
    (V : List UInt8) (hp : g.peers = some pk) (hpick : pk key = some peer)
    (hget : peer { Group := g.name, Key := key } = .ok V) :
    g.load key =
      { value := ⟨V⟩, err := none, g := g,
        trace := [Event.flightDo key, Event.pickPeer key,
          Event.peerGet { Group := g.name, Key := key }] } := by
  simp [Group.load, singleflightDo, Group.loadFn, hp, hpick, getFromPeer_ok g peer key V hget]

/-- The method `load` when the picked peer fails: the loader runs next. -/
theorem load_fallback (g : Group) (key : String) (pk : PeerPicker) (peer : PeerGetter)
    (e : Error) (hp : g.peers = some pk) (hpick : pk key = some peer)
    (hget : peer { Group := g.name, Key := key } = .error e) :
    g.load key =
      { value := if (g.getLocally key).err = none then (g.getLocally key).value else ⟨[]⟩
        err := (g.getLocally key).err
        g := (g.getLocally key).g
        trace := [Event.flightDo key, Event.pickPeer key,
          Event.peerGet { Group := g.name, Key := key }] ++ (g.getLocally key).trace } := by
  simp only [Group.load, singleflightDo, Group.loadFn, hp, hpick,
    getFromPeer_error g peer key e hget]
  cases hl : (g.getLocally key).err <;> simp [hl]

/-- C3: with no peer router, or a router that picks no peer for the key, a non-empty key that
misses locally and a loader that returns `(B, nil)` make `Get` return a `ByteView` with content
`B` and a nil error; the loader is called exactly once, with that key; the Group is left with
`mainCache.add(key, v)` applied to its cache, the shard being constructed with the Group's
budget when it did not exist. -/
theorem Get_local_load (g : Group) (key : String) (B : List UInt8)
    (hpeer : ∀ pk, g.peers = some pk → pk key = none) (hkey : key ≠ "")
    (hmiss : (g.mainCache.get key).1.2 = false) (hload : g.getter key = .ok B) :
    (g.Get key).err = none ∧ (g.Get key).value.b = B ∧
    (g.Get key).trace.filter Event.isLoaderCall = [Event.getterGet key] ∧
    (g.Get key).trace.filter Event.isCacheAdd = [Event.cacheAdd key (g.Get key).value] ∧
    (g.Get key).g = { g with mainCache := g.mainCache.add key (g.Get key).value } ∧
    (g.mainCache.lru = none → (g.Get key).g.mainCache.lru =
      some ((lru.New g.mainCache.nbytes).Add key (g.Get key).value)) := by
  rw [Get_of_miss g key hkey hmiss, load_local g key hpeer, getLocally_ok g key B hload]
  refine ⟨rfl, rfl, ?_, ?_, rfl, ?_⟩
  · cases g.peers <;> simp [List.filter, Event.isLoaderCall]
  · cases g.peers <;> simp [List.filter, Event.isCacheAdd]
  · intro hnone
    simp [cache.add, hnone]

/-- Witness of C3: the sample Group loads the key "Tom" through its loader. -/
theorem Get_local_load_witness :
    (sampleGroup.Get "Tom").err = none ∧ (sampleGroup.Get "Tom").value.b = [54, 51] ∧
    (sampleGroup.Get "Tom").trace.filter Event.isLoaderCall = [Event.getterGet "Tom"] ∧
    (sampleGroup.Get "Tom").trace.filter Event.isCacheAdd =
      [Event.cacheAdd "Tom" (sampleGroup.Get "Tom").value] ∧
    (sampleGroup.Get "Tom").g =
      { sampleGroup with
        mainCache := sampleGroup.mainCache.add "Tom" (sampleGroup.Get "Tom").value } ∧
    (sampleGroup.mainCache.lru = none → (sampleGroup.Get "Tom").g.mainCache.lru =
      some ((lru.New sampleGroup.mainCache.nbytes).Add "Tom" (sampleGroup.Get "Tom").value)) :=
  Get_local_load sampleGroup "Tom" [54, 51] (by intro pk h; cases h) (by decide) (by decide)
    (by rfl)

/-- C4: on a non-empty key for which `mainCache.get` reports a hit with value `v`, `Get`
returns `(v, nil)`; its only call is the cache lookup, so neither the loader nor the peer
router nor a peer transport is invoked. -/
theorem Get_local_hit (g : Group) (key : String) (v : ByteView) (hkey : key ≠ "")
    (hhit : (g.mainCache.get key).1 = (v, true)) :
    (g.Get key).value = v ∧ (g.Get key).err = none ∧
    (g.Get key).trace = [Event.cacheGet key] ∧
    (g.Get key).trace.filter Event.isLoaderCall = [] ∧
    (g.Get key).trace.filter Event.isPickPeer = [] ∧
    (g.Get key).trace.filter Event.isPeerGet = [] ∧
    (g.Get key).g = { g with mainCache := (g.mainCache.get key).2 } := by
  have hget : g.mainCache.get key = ((v, true), (g.mainCache.get key).2) := by
    rw [← hhit]
  have hG : g.Get key =
      { value := v, err := none, g := { g with mainCache := (g.mainCache.get key).2 },
        trace := [Event.cacheGet key] } := by
    unfold Group.Get
    rw [if_neg hkey]
    generalize g.mainCache.get key = r at hget ⊢
    rw [hget]
  rw [hG]
  simp [List.filter, Event.isLoaderCall, Event.isPickPeer, Event.isPeerGet]

/-- Witness of C4: the warm sample Group serves "Tom" from its cache. -/
theorem Get_local_hit_witness :
    (sampleGroupWarm.Get "Tom").value = ⟨[54, 51]⟩ ∧ (sampleGroupWarm.Get "Tom").err = none ∧
    (sampleGroupWarm.Get "Tom").trace = [Event.cacheGet "Tom"] ∧
    (sampleGroupWarm.Get "Tom").trace.filter Event.isLoaderCall = [] ∧
    (sampleGroupWarm.Get "Tom").trace.filter Event.isPickPeer = [] ∧
    (sampleGroupWarm.Get "Tom").trace.filter Event.isPeerGet = [] ∧
    (sampleGroupWarm.Get "Tom").g =
      { sampleGroupWarm with mainCache := (sampleGroupWarm.mainCache.get "Tom").2 } :=
  Get_local_hit sampleGroupWarm "Tom" ⟨[54, 51]⟩ (by decide) (by decide)

/-- C5: with a registered router that picks a peer for a non-empty, locally missing key, and a
peer whose `Get` succeeds with response value `V`, `Get` returns a `ByteView` with content `V`
and a nil error; the loader is never called, `mainCache.add` is never called, and the Group,
its cache included, is left as it was. -/
theorem Get_remote_no_fill (g : Group) (key : String) (pk : PeerPicker) (peer : PeerGetter)
    (V : List UInt8) (hkey : key ≠ "") (hmiss : (g.mainCache.get key).1.2 = false)
    (hp : g.peers = some pk) (hpick : pk key = some peer)
    (hget : peer { Group := g.name, Key := key } = .ok V) :
    (g.Get key).value = ⟨V⟩ ∧ (g.Get key).err = none ∧
    (g.Get key).trace.filter Event.isLoaderCall = [] ∧
    (g.Get key).trace.filter Event.isCacheAdd = [] ∧
    (g.Get key).g = g ∧ (g.Get key).g.mainCache = g.mainCache := by
  rw [Get_of_miss g key hkey hmiss, load_remote g key pk peer V hp hpick hget]
  simp [List.filter, Event.isLoaderCall, Event.isCacheAdd]

/-- Witness of C5: the sample Group whose peer answers serves "Tom" from the peer. -/
theorem Get_remote_no_fill_witness :
    (sampleGroupPeerOk.Get "Tom").value = ⟨[86]⟩ ∧ (sampleGroupPeerOk.Get "Tom").err = none ∧
    (sampleGroupPeerOk.Get "Tom").trace.filter Event.isLoaderCall = [] ∧
    (sampleGroupPeerOk.Get "Tom").trace.filter Event.isCacheAdd = [] ∧
    (sampleGroupPeerOk.Get "Tom").g = sampleGroupPeerOk ∧
    (sampleGroupPeerOk.Get "Tom").g.mainCache = sampleGroupPeerOk.mainCache :=
  Get_remote_no_fill sampleGroupPeerOk "Tom" (fun _ => some (fun _ => .ok [86]))
    (fun _ => .ok [86]) [86] (by decide) (by decide) rfl rfl rfl

/-- C6: with a registered router that picks a peer whose `Get` returns an error, and a loader
that returns `(B, nil)`, `Get` on a non-empty uncached key returns a `ByteView` with content
`B` and a nil error (the peer's error is not surfaced); the loader is called exactly once, the
peer transport exactly once, and the value is stored through `mainCache.add(key, value)`: the
Group is left with that call applied to its cache, so the shard afterwards is the shard before
(constructed with the Group's budget when it did not exist) with `Add(key, value)` applied,
and when a freshly constructed shard has room for the value a later cache lookup of the key
hits with it. -/
theorem Get_fallback (g : Group) (key : String) (pk : PeerPicker) (peer : PeerGetter)
    (e : Error) (B : List UInt8) (hkey : key ≠ "")
    (hmiss : (g.mainCache.get key).1.2 = false)
    (hp : g.peers = some pk) (hpick : pk key = some peer)
    (hget : peer { Group := g.name, Key := key } = .error e)
    (hload : g.getter key = .ok B) :
    (g.Get key).value.b = B ∧ (g.Get key).err = none ∧
    (g.Get key).trace.filter Event.isLoaderCall = [Event.getterGet key] ∧
    (g.Get key).trace.filter Event.isPeerGet =
      [Event.peerGet { Group := g.name, Key := key }] ∧
    (g.Get key).trace.filter Event.isCacheAdd = [Event.cacheAdd key (g.Get key).value] ∧
    (g.Get key).g = { g with mainCache := g.mainCache.add key (g.Get key).value } ∧
    (g.Get key).g.mainCache.lru =
      some ((match g.mainCache.lru with
        | none => lru.New g.mainCache.nbytes
        | some l => l).Add key ⟨B⟩) ∧
    (g.mainCache.lru = none → (g.Get key).g.mainCache.lru =
      some ((lru.New g.mainCache.nbytes).Add key ⟨B⟩)) ∧
    (g.mainCache.lru = none → (B.length : Int) ≤ g.mainCache.nbytes →
      ((g.Get key).g.mainCache.get key).1 = (⟨B⟩, true)) := by
  rw [Get_of_miss g key hkey hmiss, load_fallback g key pk peer e hp hpick hget,
    getLocally_ok g key B hload]
  refine ⟨rfl, rfl, ?_, ?_, ?_, rfl, ?_, ?_, ?_⟩
  · simp [List.filter, Event.isLoaderCall]
  · simp [List.filter, Event.isPeerGet]
  · simp [List.filter, Event.isCacheAdd]
  · cases hl : g.mainCache.lru <;> simp [cache.add, hl]
  · intro hnone
    simp [cache.add, hnone]
  · intro hnone hfit
    have hnot : ¬ (g.mainCache.nbytes < (B.length : Int)) := by omega
    simp [cache.add, cache.get, hnone, lru.New, lru.Cache.Add, lru.Cache.evict,
      lru.Cache.Get, ByteView.Len, hnot]

/-- Witness of C6: the sample Group whose peer is down loads "Tom" through its loader. -/
theorem Get_fallback_witness :
    (sampleGroupPeerDown.Get "Tom").value.b = [54, 51] ∧
    (sampleGroupPeerDown.Get "Tom").err = none ∧
    (sampleGroupPeerDown.Get "Tom").trace.filter Event.isLoaderCall =
      [Event.getterGet "Tom"] ∧
    (sampleGroupPeerDown.Get "Tom").trace.filter Event.isPeerGet =
      [Event.peerGet { Group := sampleGroupPeerDown.name, Key := "Tom" }] ∧
    (sampleGroupPeerDown.Get "Tom").trace.filter Event.isCacheAdd =
      [Event.cacheAdd "Tom" (sampleGroupPeerDown.Get "Tom").value] ∧
    (sampleGroupPeerDown.Get "Tom").g =
      { sampleGroupPeerDown with
        mainCache := sampleGroupPeerDown.mainCache.add "Tom"
          (sampleGroupPeerDown.Get "Tom").value } ∧
    (sampleGroupPeerDown.Get "Tom").g.mainCache.lru =
      some ((match sampleGroupPeerDown.mainCache.lru with
        | none => lru.New sampleGroupPeerDown.mainCache.nbytes
        | some l => l).Add "Tom" ⟨[54, 51]⟩) ∧
    (sampleGroupPeerDown.mainCache.lru = none → (sampleGroupPeerDown.Get "Tom").g.mainCache.lru =
      some ((lru.New sampleGroupPeerDown.mainCache.nbytes).Add "Tom" ⟨[54, 51]⟩)) ∧
    (sampleGroupPeerDown.mainCache.lru = none →
      ((([54, 51] : List UInt8).length : Nat) : Int) ≤ sampleGroupPeerDown.mainCache.nbytes →
      ((sampleGroupPeerDown.Get "Tom").g.mainCache.get "Tom").1 = (⟨[54, 51]⟩, true)) :=
  Get_fallback sampleGroupPeerDown "Tom" (fun _ => some (fun _ => .error "unreachable"))
    (fun _ => .error "unreachable") "unreachable" [54, 51] (by decide) (by decide) rfl rfl rfl
    rfl

/-- C7 as stated fails: the sample Group whose peer answers has a loader that returns the
error "not exist" for the non-empty, uncached key "Ann", yet `Get` returns the peer's value
with a nil error. -/
theorem Get_loader_error_counterexample :
    "Ann" ≠ "" ∧ (sampleGroupPeerOk.mainCache.get "Ann").1.2 = false ∧
    sampleGroupPeerOk.getter "Ann" = .error "not exist" ∧
    (sampleGroupPeerOk.Get "Ann").err = none ∧
    (sampleGroupPeerOk.Get "Ann").err ≠ some "not exist" ∧
    (sampleGroupPeerOk.Get "Ann").value = ⟨[86]⟩ := by
  refine ⟨by decide, by decide, rfl, by decide, by decide, by decide⟩

/-- C7, amended: on a non-empty uncached key for which no remote fetch succeeds (no router,
no peer picked, or the picked peer's `Get` fails, with whatever error), a loader that returns
the error `e` makes `Get` return exactly `e` together with the empty `ByteView`; the Group's
cache is unchanged and `mainCache.add` is not called. -/
theorem Get_loader_error (g : Group) (key : String) (e : Error) (hkey : key ≠ "")
    (hmiss : (g.mainCache.get key).1.2 = false)
    (hremote : ∀ pk peer, g.peers = some pk → pk key = some peer →
      ∃ e1, peer { Group := g.name, Key := key } = .error e1)
    (hload : g.getter key = .error e) :
    (g.Get key).err = some e ∧ (g.Get key).value = ⟨[]⟩ ∧
    (g.Get key).g = g ∧ (g.Get key).g.mainCache = g.mainCache ∧
    (g.Get key).trace.filter Event.isCacheAdd = [] ∧
    (g.Get key).trace.filter Event.isLoaderCall = [Event.getterGet key] := by
  rw [Get_of_miss g key hkey hmiss]
  by_cases hlocal : ∀ pk, g.peers = some pk → pk key = none
  · rw [load_local g key hlocal, getLocally_error g key e hload]
    cases g.peers <;> simp [List.filter, Event.isLoaderCall, Event.isCacheAdd]
  · push_neg at hlocal
    obtain ⟨pk, hp, hne⟩ := hlocal
    obtain ⟨peer, hpick⟩ := Option.ne_none_iff_exists'.mp hne
    obtain ⟨e1, hget⟩ := hremote pk peer hp hpick
    rw [load_fallback g key pk peer e1 hp hpick hget, getLocally_error g key e hload]
    simp [List.filter, Event.isLoaderCall, Event.isCacheAdd]

/-- Witness of the amended C7: the sample Group whose peer is down fails on the key "Ann"
with the loader's error, not the peer's. -/
theorem Get_loader_error_witness :
    (sampleGroupPeerDown.Get "Ann").err = some "not exist" ∧
    (sampleGroupPeerDown.Get "Ann").value = ⟨[]⟩ ∧
    (sampleGroupPeerDown.Get "Ann").g = sampleGroupPeerDown ∧
    (sampleGroupPeerDown.Get "Ann").g.mainCache = sampleGroupPeerDown.mainCache ∧
    (sampleGroupPeerDown.Get "Ann").trace.filter Event.isCacheAdd = [] ∧
    (sampleGroupPeerDown.Get "Ann").trace.filter Event.isLoaderCall =
      [Event.getterGet "Ann"] :=
  Get_loader_error sampleGroupPeerDown "Ann" "not exist" (by decide) (by decide)
    (by
      intro pk peer hp hpick
      have hpk : pk = fun _ => some (fun _ => .error "unreachable") :=
        (Option.some.inj hp).symm
      subst hpk
      have hpeer : peer = fun _ => .error "unreachable" := (Option.some.inj hpick).symm
      subst hpeer
      exact ⟨"unreachable", rfl⟩)
    rfl

/-- C8: in every state of every Group, `Get("")` returns a non-nil error and the empty
`ByteView`, makes no call at all (no cache lookup, no loader, no `PickPeer`, no peer
transport) and leaves the Group as it was. -/
theorem Get_empty_key (g : Group) :
    (g.Get "").err ≠ none ∧ (g.Get "").err = some "key is required" ∧
    (g.Get "").value = ⟨[]⟩ ∧ (g.Get "").trace = [] ∧ (g.Get "").g = g := by
  simp [Group.Get]

end GoCache

/-! ## Theorems: run-time checks, determinism and reachable rings -/

namespace sort

/-- The checked search agrees with `searchLoop` when the predicate does not panic on
`[0, n)`: the loop only evaluates it at midpoints below `j ≤ n`. -/
theorem searchLoopChecked_eq (f : Nat → Bool) (fc : Nat → Option Bool) (n : Nat)
    (hf : ∀ k, k < n → fc k = some (f k)) :
    ∀ fuel i j, j ≤ n → searchLoopChecked fc fuel i j = some (searchLoop f fuel i j) := by
  intro fuel
  induction fuel with
  | zero => intro i j _; rfl
  | succ fuel ih =>
    intro i j hjn
    simp only [searchLoopChecked, searchLoop]
    by_cases hlt : i < j
    · rw [if_pos hlt, if_pos hlt, hf ((i + j) / 2) (by omega)]
      simp only
      cases hb : f ((i + j) / 2) with
      | false => simpa using ih ((i + j) / 2 + 1) j hjn
      | true => simpa using ih i ((i + j) / 2) (by omega)
    · rw [if_neg hlt, if_neg hlt]

end sort

namespace consistenthash

/-- The method `Get` never panics: with the run-time checks made explicit it returns what the
unchecked embedding returns. -/
theorem GetChecked_eq (m : Map) (key : String) : m.GetChecked key = some (m.Get key) := by
  unfold Map.GetChecked Map.Get
  by_cases hlen : m.keys.length = 0
  · simp [hlen]
  · simp only [hlen, if_false]
    have hs := sort.searchLoopChecked_eq
      (fun i => decide (m.keys.getD i 0 ≥ m.hashInt key))
      (fun i => (m.keys[i]?).map (fun k => decide (k ≥ m.hashInt key))) m.keys.length
      (by
        intro k hk
        simp [List.getElem?_eq_getElem hk, List.getD_eq_getElem _ _ hk])
      m.keys.length 0 m.keys.length (le_refl _)
    have hs2 : sort.SearchChecked m.keys.length
        (fun i => (m.keys[i]?).map (fun k => decide (k ≥ m.hashInt key))) =
        some (sort.Search m.keys.length (fun i => decide (m.keys.getD i 0 ≥ m.hashInt key))) :=
      hs
    rw [hs2]
    have hmod : sort.Search m.keys.length
        (fun i => decide (m.keys.getD i 0 ≥ m.hashInt key)) % m.keys.length < m.keys.length :=
      Nat.mod_lt _ (Nat.pos_of_ne_zero hlen)
    dsimp only
    generalize sort.Search m.keys.length
      (fun i => decide (m.keys.getD i 0 ≥ m.hashInt key)) % m.keys.length = idx at hmod
    rw [List.getElem?_eq_getElem hmod, List.getD_eq_getElem _ _ hmod]

/-- C11: on a ring with no virtual nodes `Get` returns the empty string, for every key, and
it does so without a panic: with the index checks of the Go run time made explicit the call
returns (no out-of-range index, no modulo by zero) and leaves the ring as it was. -/
theorem Get_empty_ring (m : Map) (key : String) (hempty : m.keys = []) :
    (m.Get key).1 = "" ∧ m.GetChecked key = some ("", m) := by
  constructor
  · simp [Map.Get, hempty]
  · simp [Map.GetChecked, hempty]

/-- Witness of C11: a ring freshly returned by `New` has no virtual nodes. -/
theorem Get_empty_ring_witness :
    (sampleEmptyRing.Get "Tom").1 = "" ∧
      sampleEmptyRing.GetChecked "Tom" = some ("", sampleEmptyRing) :=
  Get_empty_ring sampleEmptyRing "Tom" rfl

/-- C17: `Get` leaves the ring (hash function, replication factor, keys list and map) as it
found it, so a second `Get` of the same key, with no `Add` in between, returns the same peer
identity as the first. -/
theorem Get_deterministic (m : Map) (key : String) :
    (m.Get key).2 = m ∧ (m.Get key).2.keys = m.keys ∧
    (m.Get key).2.hashMap = m.hashMap ∧
    ((m.Get key).2.Get key).1 = (m.Get key).1 := by
  have h : (m.Get key).2 = m := by
    unfold Map.Get
    split <;> rfl
  rw [h]
  exact ⟨rfl, rfl, rfl, rfl⟩

end consistenthash

namespace GoCache

/-- C12: once `RegisterPeers(p1)` has returned on a Group, a second call `RegisterPeers(p2)`
panics, leaves the Group as it was, and the attached router is still `p1`. -/
theorem RegisterPeers_once (g : Group) (p1 p2 : PeerPicker)
    (hfirst : (g.RegisterPeers (some p1)).1 = none) :
    ((g.RegisterPeers (some p1)).2.RegisterPeers (some p2)).1 =
      some "RegisterPeerPicker called more than once" ∧
    ((g.RegisterPeers (some p1)).2.RegisterPeers (some p2)).2 = (g.RegisterPeers (some p1)).2 ∧
    ((g.RegisterPeers (some p1)).2.RegisterPeers (some p2)).2.peers = some p1 := by
  unfold Group.RegisterPeers at hfirst ⊢
  cases hp : g.peers with
  | some q => simp [hp] at hfirst
  | none => simp

/-- Witness of C12: the sample Group has no router, so the first registration returns. -/
theorem RegisterPeers_once_witness :
    ((sampleGroup.RegisterPeers (some (fun _ => none))).2.RegisterPeers
        (some (fun _ => some (fun _ => .ok [86])))).1 =
      some "RegisterPeerPicker called more than once" ∧
    ((sampleGroup.RegisterPeers (some (fun _ => none))).2.RegisterPeers
        (some (fun _ => some (fun _ => .ok [86])))).2 =
      (sampleGroup.RegisterPeers (some (fun _ => none))).2 ∧
    ((sampleGroup.RegisterPeers (some (fun _ => none))).2.RegisterPeers
        (some (fun _ => some (fun _ => .ok [86])))).2.peers = some (fun _ => none) :=
  RegisterPeers_once sampleGroup (fun _ => none) (fun _ => some (fun _ => .ok [86])) rfl

/-- A name that no `NewGroup` call of a sequence used is mapped as before the sequence. -/
theorem NewGroups_other (calls : List (String × Int × Getter)) :
    ∀ (w : Registry) (m : String), (∀ c ∈ calls, c.1 ≠ m) →
      GetGroup (NewGroups w calls) m = GetGroup w m := by
  induction calls with
  | nil => intro w m _; rfl
  | cons c cs ih =>
    intro w m hm
    have h1 : c.1 ≠ m := hm c (List.mem_cons_self _ _)
    have h2 : ∀ d ∈ cs, d.1 ≠ m := fun d hd => hm d (List.mem_cons_of_mem _ hd)
    simp only [NewGroups, List.foldl_cons] at ih ⊢
    rw [ih _ m h2]
    simp [NewGroup, GetGroup, Ne.symm h1]

/-- C13: for every name `n`, budget and non-nil loader, `g := NewGroup(n, budget, loader)`
returns a fresh Group with these fields, `GetGroup(n)` then returns `g` whatever was
registered under `n` before, `GetGroup(m)` for every other name `m` returns what it returned
before, and a name that no `NewGroup` call has used yields nil. -/
theorem registry_round_trip (w : Registry) (n : String) (budget : Int) (loader : Getter) :
    (NewGroup w n budget (some loader)).1 = some w.heap.length ∧
    GetGroup (NewGroup w n budget (some loader)).2 n = (NewGroup w n budget (some loader)).1 ∧
    (NewGroup w n budget (some loader)).2.heap[w.heap.length]? =
      some { name := n, getter := loader, mainCache := { lru := none, nbytes := budget },
             peers := none } ∧
    (∀ p, p < w.heap.length →
      (NewGroup w n budget (some loader)).2.heap[p]? = w.heap[p]?) ∧
    (∀ m, m ≠ n → GetGroup (NewGroup w n budget (some loader)).2 m = GetGroup w m) ∧
    (∀ (calls : List (String × Int × Getter)) (m : String), (∀ c ∈ calls, c.1 ≠ m) →
      GetGroup (NewGroups Registry.init calls) m = none) := by
  refine ⟨rfl, by simp [NewGroup, GetGroup], by simp [NewGroup], ?_, ?_, ?_⟩
  · intro p hp
    simp [NewGroup, List.getElem?_append_left hp]
  · intro m hm
    simp [NewGroup, GetGroup, hm]
  · intro calls m hm
    rw [NewGroups_other calls Registry.init m hm]
    rfl

end GoCache

/-! ## Theorems: rings built by `Add` -/

namespace consistenthash

/-- What one `Add` call does to a ring. -/
theorem Add_spec (m : Map) (ps : List String) :
    (m.Add ps).hash = m.hash ∧ (m.Add ps).replicas = m.replicas ∧
    List.Perm (m.Add ps).keys (m.keys ++ m.virtualNodes ps) ∧
    (∀ k, k ∈ m.virtualNodes ps → ∃ p, p ∈ ps ∧ k ∈ m.nodesOf p ∧
      (m.Add ps).hashMap k = some p) ∧
    (∀ k, k ∉ m.virtualNodes ps → (m.Add ps).hashMap k = m.hashMap k) := by
  obtain ⟨h1, h2, h3, h4, h5⟩ := addKey_foldl ps m
  refine ⟨h1, h2, ?_, h4, h5⟩
  have hkeys : (m.Add ps).keys = sort.Ints (m.keys ++ m.virtualNodes ps) := by
    simp only [Map.Add]; rw [h3]
  rw [hkeys]
  exact List.perm_insertionSort _ _

/-- The virtual nodes of a concatenation of peer lists. -/
theorem virtualNodes_append (m : Map) (ps qs : List String) :
    m.virtualNodes (ps ++ qs) = m.virtualNodes ps ++ m.virtualNodes qs := by
  simp [Map.virtualNodes]

/-- The virtual nodes depend on the ring only through hash and replicas. -/
theorem virtualNodes_congr (m1 m : Map) (hh : m1.hash = m.hash)
    (hr : m1.replicas = m.replicas) (ps : List String) :
    m1.virtualNodes ps = m.virtualNodes ps := by
  simp only [Map.virtualNodes]
  congr 1
  funext q
  exact nodesOf_congr _ _ hh hr q

/-- A value is a virtual node of `ps` exactly when one of the peers of `ps` produces it. -/
theorem mem_virtualNodes (m : Map) (ps : List String) (k : Int) :
    k ∈ m.virtualNodes ps ↔ ∃ p, p ∈ ps ∧ k ∈ m.nodesOf p := by
  simp [Map.virtualNodes, List.mem_flatMap]

/-- What a finite sequence of `Add` calls does to a ring. -/
theorem AddAll_spec : ∀ (calls : List (List String)) (m : Map),
    (m.AddAll calls).hash = m.hash ∧ (m.AddAll calls).replicas = m.replicas ∧
    List.Perm (m.AddAll calls).keys (m.keys ++ m.virtualNodes calls.flatten) ∧
    (∀ k, k ∈ m.virtualNodes calls.flatten → ∃ p, p ∈ calls.flatten ∧ k ∈ m.nodesOf p ∧
      (m.AddAll calls).hashMap k = some p) ∧
    (∀ k, k ∉ m.virtualNodes calls.flatten → (m.AddAll calls).hashMap k = m.hashMap k) := by
  intro calls
  induction calls with
  | nil => intro m; simp [Map.AddAll, Map.virtualNodes]
  | cons c cs ih =>
    intro m
    obtain ⟨a1, a2, a3, a4, a5⟩ := Add_spec m c
    obtain ⟨h1, h2, h3, h4, h5⟩ := ih (m.Add c)
    rw [virtualNodes_congr _ _ a1 a2] at h3 h4 h5
    have hstep : m.AddAll (c :: cs) = (m.Add c).AddAll cs := rfl
    rw [hstep, List.flatten_cons, virtualNodes_append]
    refine ⟨h1.trans a1, h2.trans a2, ?_, ?_, ?_⟩
    · refine h3.trans ?_
      rw [← List.append_assoc]
      exact List.Perm.append_right _ a3
    · intro k hk
      by_cases hin : k ∈ m.virtualNodes cs.flatten
      · obtain ⟨q, hq, hkq, hmap⟩ := h4 k hin
        refine ⟨q, List.mem_append.mpr (Or.inr hq), ?_, hmap⟩
        rw [← nodesOf_congr _ _ a1 a2 q]; exact hkq
      · have hkc : k ∈ m.virtualNodes c := by
          rcases List.mem_append.mp hk with h | h
          · exact h
          · exact absurd h hin
        obtain ⟨p, hp, hkp, hmap⟩ := a4 k hkc
        exact ⟨p, List.mem_append.mpr (Or.inl hp), hkp, by rw [h5 k hin]; exact hmap⟩
    · intro k hk
      have hk1 : k ∉ m.virtualNodes c := fun h => hk (List.mem_append.mpr (Or.inl h))
      have hk2 : k ∉ m.virtualNodes cs.flatten := fun h => hk (List.mem_append.mpr (Or.inr h))
      rw [h5 k hk2]; exact a5 k hk1

/-- A sequence of `Add` calls on a sorted ring leaves it sorted. -/
theorem AddAll_sorted (calls : List (List String)) (m : Map) (hs : m.keys.Sorted (· ≤ ·)) :
    (m.AddAll calls).keys.Sorted (· ≤ ·) := by
  induction calls using List.reverseRecOn with
  | nil => exact hs
  | append_singleton cs c _ =>
    simp only [Map.AddAll, List.foldl_append, List.foldl_cons, List.foldl_nil]
    exact Add_sorted _ _

/-- On a non-empty ring `Get` reads the map at an element of the keys list. -/
theorem Get_mem (m : Map) (key : String) (hne : m.keys ≠ []) :
    ∃ v, v ∈ m.keys ∧ (m.Get key).1 = m.lookup v := by
  have hpos : 0 < m.keys.length := List.length_pos.mpr hne
  have hmod : m.searchIdx key % m.keys.length < m.keys.length := Nat.mod_lt _ hpos
  refine ⟨m.keys[m.searchIdx key % m.keys.length], List.getElem_mem _, ?_⟩
  rw [Get_eq m key hne, List.getD_eq_getElem _ _ hmod]

/-- Two rings with the same hash function and keys list whose maps agree on the keys give
the same answer. -/
theorem Get_congr (m1 m2 : Map) (key : String) (hh : m1.hash = m2.hash)
    (hk : m1.keys = m2.keys) (hm : ∀ k, k ∈ m1.keys → m1.hashMap k = m2.hashMap k) :
    (m1.Get key).1 = (m2.Get key).1 := by
  by_cases hne : m1.keys = []
  · have hne2 : m2.keys = [] := by rw [← hk]; exact hne
    simp [Map.Get, hne, hne2]
  · have hne2 : m2.keys ≠ [] := by rw [← hk]; exact hne
    have hpos : 0 < m1.keys.length := List.length_pos.mpr hne
    have hidx : m2.searchIdx key = m1.searchIdx key := by
      simp only [Map.searchIdx, ← hk, hashInt_congr m2 m1 hh.symm]
    rw [Get_eq m1 key hne, Get_eq m2 key hne2, hidx, ← hk]
    have hmod : m1.searchIdx key % m1.keys.length < m1.keys.length := Nat.mod_lt _ hpos
    rw [List.getD_eq_getElem _ _ hmod]
    simp only [Map.lookup]
    rw [hm _ (List.getElem_mem _)]

/-- C18: a ring built from `New(r, fn)` with `r ≥ 1` by `Add` calls that together pass at
least one peer identity answers every key with one of the peer identities passed to `Add`:
the keys list is not empty and each of its elements has a map entry naming such a peer. -/
theorem Get_registered_peer (r : Int) (fn : Option Hash) (crc : Hash)
    (calls : List (List String)) (key : String) (hr : 1 ≤ r) (hps : calls.flatten ≠ []) :
    (((New r fn crc).AddAll calls).Get key).1 ∈ calls.flatten ∧
    ((New r fn crc).AddAll calls).keys ≠ [] ∧
    (∀ k, k ∈ ((New r fn crc).AddAll calls).keys →
      ∃ p, p ∈ calls.flatten ∧ ((New r fn crc).AddAll calls).hashMap k = some p) := by
  obtain ⟨_, _, h3, h4, _⟩ := AddAll_spec calls (New r fn crc)
  have hkeys0 : (New r fn crc).keys = [] := rfl
  rw [hkeys0, List.nil_append] at h3
  have hall : ∀ k, k ∈ ((New r fn crc).AddAll calls).keys →
      ∃ p, p ∈ calls.flatten ∧ ((New r fn crc).AddAll calls).hashMap k = some p := by
    intro k hk
    obtain ⟨p, hp, _, hm⟩ := h4 k (h3.mem_iff.mp hk)
    exact ⟨p, hp, hm⟩
  have hne : ((New r fn crc).AddAll calls).keys ≠ [] := by
    intro hnil
    have hlen := h3.length_eq
    rw [hnil, virtualNodes_length] at hlen
    have hrep : (New r fn crc).replicas = r := rfl
    rw [hrep] at hlen
    have h1 : 0 < r.toNat := by omega
    have h2 : 0 < calls.flatten.length := List.length_pos.mpr hps
    have hmul := Nat.mul_pos h1 h2
    simp only [List.length_nil] at hlen
    rw [← hlen] at hmul
    exact Nat.lt_irrefl 0 hmul
  refine ⟨?_, hne, hall⟩
  obtain ⟨v, hv, hget⟩ := Get_mem _ key hne
  obtain ⟨p, hp, hm⟩ := hall v hv
  rw [hget]
  simp only [Map.lookup, hm, Option.getD_some]
  exact hp

/-- Witness of C18: two peers added in two calls to a ring with three replicas per peer. -/
theorem Get_registered_peer_witness :
    (((New 3 none (fun s => s.length)).AddAll [["a"], ["bb"]]).Get "Tom").1 ∈
      ([["a"], ["bb"]] : List (List String)).flatten ∧
    ((New 3 none (fun s => s.length)).AddAll [["a"], ["bb"]]).keys ≠ [] ∧
    (∀ k, k ∈ ((New 3 none (fun s => s.length)).AddAll [["a"], ["bb"]]).keys →
      ∃ p, p ∈ ([["a"], ["bb"]] : List (List String)).flatten ∧
        ((New 3 none (fun s => s.length)).AddAll [["a"], ["bb"]]).hashMap k = some p) :=
  Get_registered_peer 3 none (fun s => s.length) [["a"], ["bb"]] "Tom" (by decide) (by decide)

/-- C19: when no two distinct peers produce the same virtual-node hash, two rings built from
`New` with the same replication factor and hash function by `Add` calls whose peer lists,
taken together, are permutations of each other (each split over any number of calls) have
the same keys list and return the same peer from `Get` for every key. -/
theorem Get_order_independent (r : Int) (fn : Option Hash) (crc : Hash)
    (calls1 calls2 : List (List String)) (key : String)
    (hperm : List.Perm calls1.flatten calls2.flatten)
    (hinj : ∀ p q v, p ∈ calls1.flatten → q ∈ calls1.flatten →
      v ∈ (New r fn crc).nodesOf p → v ∈ (New r fn crc).nodesOf q → p = q) :
    (((New r fn crc).AddAll calls1).Get key).1 = (((New r fn crc).AddAll calls2).Get key).1 ∧
    ((New r fn crc).AddAll calls1).keys = ((New r fn crc).AddAll calls2).keys := by
  obtain ⟨a1, _, a3, a4, _⟩ := AddAll_spec calls1 (New r fn crc)
  obtain ⟨b1, _, b3, b4, _⟩ := AddAll_spec calls2 (New r fn crc)
  have hkeys0 : (New r fn crc).keys = [] := rfl
  rw [hkeys0, List.nil_append] at a3 b3
  have hvn : List.Perm ((New r fn crc).virtualNodes calls1.flatten)
      ((New r fn crc).virtualNodes calls2.flatten) :=
    List.Perm.flatMap_right _ hperm
  have hsorted0 : (New r fn crc).keys.Sorted (· ≤ ·) := by rw [hkeys0]; exact List.sorted_nil
  have hkeys : ((New r fn crc).AddAll calls1).keys = ((New r fn crc).AddAll calls2).keys :=
    List.eq_of_perm_of_sorted ((a3.trans hvn).trans b3.symm)
      (AddAll_sorted calls1 _ hsorted0) (AddAll_sorted calls2 _ hsorted0)
  refine ⟨?_, hkeys⟩
  apply Get_congr _ _ key (a1.trans b1.symm) hkeys
  intro k hk
  have hk1 : k ∈ (New r fn crc).virtualNodes calls1.flatten := a3.mem_iff.mp hk
  have hk2 : k ∈ (New r fn crc).virtualNodes calls2.flatten := hvn.mem_iff.mp hk1
  obtain ⟨p, hp, hkp, hmp⟩ := a4 k hk1
  obtain ⟨q, hq, hkq, hmq⟩ := b4 k hk2
  have hpq : p = q := hinj p q k hp (hperm.mem_iff.mpr hq) hkp hkq
  rw [hmp, hmq, hpq]

/-- Witness of C19: the peers "a" and "bb" added in either order, in one call or in two. -/
theorem Get_order_independent_witness :
    (((New 2 none (fun s => s.length)).AddAll [["a", "bb"]]).Get "Tom").1 =
      (((New 2 none (fun s => s.length)).AddAll [["bb"], ["a"]]).Get "Tom").1 ∧
    ((New 2 none (fun s => s.length)).AddAll [["a", "bb"]]).keys =
      ((New 2 none (fun s => s.length)).AddAll [["bb"], ["a"]]).keys :=
  Get_order_independent 2 none (fun s => s.length) [["a", "bb"]] [["bb"], ["a"]] "Tom"
    (by decide)
    (by
      intro p q v hp hq hvp hvq
      have hp2 : p = "a" ∨ p = "bb" := by simpa using hp
      have hq2 : q = "a" ∨ q = "bb" := by simpa using hq
      rcases hp2 with rfl | rfl <;> rcases hq2 with rfl | rfl
      · rfl
      · have h1 : v = 2 := by
          have : v ∈ ([2, 2] : List Int) := hvp
          simpa using this
        have h2 : v = 3 := by
          have : v ∈ ([3, 3] : List Int) := hvq
          simpa using this
        omega
      · have h1 : v = 3 := by
          have : v ∈ ([3, 3] : List Int) := hvp
          simpa using this
        have h2 : v = 2 := by
          have : v ∈ ([2, 2] : List Int) := hvq
          simpa using this
        omega
      · rfl)

end consistenthash

namespace consistenthash

/-- The map entries written by the loops of `Add` do not depend on what the map held
before: two rings with the same hash function and replication factor whose maps agree outside
the virtual nodes of `ps` have the same map after the loops. -/
theorem addKey_foldl_agree : ∀ (ps : List String) (m1 m2 : Map),
    m1.hash = m2.hash → m1.replicas = m2.replicas →
    (∀ k, k ∈ m1.virtualNodes ps ∨ m1.hashMap k = m2.hashMap k) →
    ∀ k, (ps.foldl (fun acc key => acc.addKey key) m1).hashMap k =
      (ps.foldl (fun acc key => acc.addKey key) m2).hashMap k := by
  intro ps
  induction ps with
  | nil =>
    intro m1 m2 _ _ hag k
    rcases hag k with h | h
    · simp [Map.virtualNodes] at h
    · exact h
  | cons p ps ih =>
    intro m1 m2 hh hr hag k
    obtain ⟨a1, a2, _, a4, a5⟩ := addKey_spec m1 p
    obtain ⟨b1, b2, _, b4, b5⟩ := addKey_spec m2 p
    simp only [List.foldl_cons]
    apply ih (m1.addKey p) (m2.addKey p) (a1.trans (hh.trans b1.symm))
      (a2.trans (hr.trans b2.symm))
    intro j
    have hnodes : m2.nodesOf p = m1.nodesOf p := nodesOf_congr _ _ hh.symm hr.symm p
    by_cases hjp : j ∈ m1.nodesOf p
    · right
      rw [a4 j hjp, b4 j (by rw [hnodes]; exact hjp)]
    · by_cases hjs : j ∈ m1.virtualNodes ps
      · left
        rw [virtualNodes_congr _ _ a1 a2]; exact hjs
      · right
        rw [a5 j hjp, b5 j (by rw [hnodes]; exact hjp)]
        rcases hag j with h | h
        · have hcons : m1.virtualNodes (p :: ps) = m1.nodesOf p ++ m1.virtualNodes ps := by
            simp [Map.virtualNodes]
          rw [hcons] at h
          rcases List.mem_append.mp h with h1 | h1
          · exact absurd h1 hjp
          · exact absurd h1 hjs
        · exact h

/-- On a sorted non-empty ring `Get` reads the map at the value that the ring order
singles out: the least ring value at or above the hash of the key, or, when there is none,
the least ring value. -/
theorem Get_target (m : Map) (key : String) (hne : m.keys ≠ [])
    (hs : m.keys.Sorted (· ≤ ·)) :
    ∃ v, v ∈ m.keys ∧ (m.Get key).1 = m.lookup v ∧
      ((m.hashInt key ≤ v ∧ ∀ w, w ∈ m.keys → m.hashInt key ≤ w → v ≤ w) ∨
       ((∀ w, w ∈ m.keys → w < m.hashInt key) ∧ ∀ w, w ∈ m.keys → v ≤ w)) := by
  obtain ⟨hle, hlo, hhi⟩ := sort.Search_spec
    (fun i => decide (m.keys.getD i 0 ≥ m.hashInt key)) m.keys.length
    (Get_pred_mono m.keys (m.hashInt key) hs)
  have hpos : 0 < m.keys.length := List.length_pos.mpr hne
  have hle2 : m.searchIdx key ≤ m.keys.length := hle
  rw [Get_eq m key hne]
  rcases Nat.eq_or_lt_of_le hle2 with heq | hlt
  · refine ⟨m.keys[0], List.getElem_mem _, ?_, Or.inr ⟨?_, ?_⟩⟩
    · rw [heq, Nat.mod_self, List.getD_eq_getElem _ _ hpos]
    · intro w hw
      obtain ⟨n, hn, hnv⟩ := List.getElem_of_mem hw
      have hf := hlo n (by rw [← heq] at hn; exact hn)
      simp only [List.getD_eq_getElem _ _ hn, hnv, ge_iff_le, decide_eq_false_iff_not] at hf
      omega
    · intro w hw
      obtain ⟨n, hn, hnv⟩ := List.getElem_of_mem hw
      rw [← hnv]
      rcases Nat.eq_zero_or_pos n with h0 | hp
      · subst h0; exact le_refl _
      · exact (List.pairwise_iff_getElem.mp hs) 0 n hpos hn hp
  · have hhit := hhi (m.searchIdx key) (le_refl _) hlt
    simp only [List.getD_eq_getElem _ _ hlt, ge_iff_le, decide_eq_true_eq] at hhit
    refine ⟨m.keys[m.searchIdx key], List.getElem_mem _, ?_, Or.inl ⟨hhit, ?_⟩⟩
    · rw [Nat.mod_eq_of_lt hlt, List.getD_eq_getElem _ _ hlt]
    · intro w hw hge
      obtain ⟨n, hn, hnv⟩ := List.getElem_of_mem hw
      have hnge : m.searchIdx key ≤ n := by
        by_contra hcon
        have hf := hlo n (by unfold Map.searchIdx at hcon; omega)
        simp only [List.getD_eq_getElem _ _ hn, hnv, ge_iff_le, decide_eq_false_iff_not] at hf
        exact hf hge
      rw [← hnv]
      rcases Nat.eq_or_lt_of_le hnge with heq | hlt2
      · simp [heq]
      · exact (List.pairwise_iff_getElem.mp hs) _ n hlt hn hlt2

/-- Two sorted rings with the same hash function, the same ring values (whatever their
multiplicities) and maps that agree on them give the same answer. -/
theorem Get_same_values (m1 m2 : Map) (key : String) (hh : m1.hash = m2.hash)
    (hs1 : m1.keys.Sorted (· ≤ ·)) (hs2 : m2.keys.Sorted (· ≤ ·))
    (hmem : ∀ w, w ∈ m1.keys ↔ w ∈ m2.keys)
    (hm : ∀ k, k ∈ m1.keys → m1.hashMap k = m2.hashMap k) :
    (m1.Get key).1 = (m2.Get key).1 := by
  by_cases hne : m1.keys = []
  · have hne2 : m2.keys = [] := by
      cases hk : m2.keys with
      | nil => rfl
      | cons a t =>
        have : a ∈ m1.keys := (hmem a).mpr (by rw [hk]; exact List.mem_cons_self _ _)
        rw [hne] at this
        exact absurd this (List.not_mem_nil _)
    simp [Map.Get, hne, hne2]
  · have hne2 : m2.keys ≠ [] := by
      intro h2
      obtain ⟨a, ha⟩ := List.exists_mem_of_ne_nil _ hne
      have : a ∈ m2.keys := (hmem a).mp ha
      rw [h2] at this
      exact absurd this (List.not_mem_nil _)
    obtain ⟨v1, hv1, hg1, hc1⟩ := Get_target m1 key hne hs1
    obtain ⟨v2, hv2, hg2, hc2⟩ := Get_target m2 key hne2 hs2
    have hhash : m2.hashInt key = m1.hashInt key := hashInt_congr m2 m1 hh.symm key
    rw [hhash] at hc2
    have hv : v1 = v2 := by
      have hv1' : v1 ∈ m2.keys := (hmem v1).mp hv1
      have hv2' : v2 ∈ m1.keys := (hmem v2).mpr hv2
      rcases hc1 with ⟨hge1, hmin1⟩ | ⟨hall1, hmin1⟩
      · rcases hc2 with ⟨hge2, hmin2⟩ | ⟨hall2, hmin2⟩
        · have := hmin1 v2 hv2' hge2
          have := hmin2 v1 hv1' hge1
          omega
        · have := hall2 v1 hv1'
          omega
      · rcases hc2 with ⟨hge2, hmin2⟩ | ⟨hall2, hmin2⟩
        · have := hall1 v2 hv2'
          omega
        · have := hmin1 v2 hv2'
          have := hmin2 v1 hv1'
          omega
    rw [hg1, hg2, ← hv]
    simp only [Map.lookup]
    rw [hm v1 hv1]

/-- C20: for every ring, peer list and key, `Get` answers the same after `Add(ps...)`
followed at once by a second `Add(ps...)` as after the first `Add(ps...)` alone; the map is
the same after both, while the keys list of the second ring is that of the first together
with the virtual-node values of `ps` once more. -/
theorem Add_twice_same_routing (m : Map) (ps : List String) (key : String) :
    (((m.Add ps).Add ps).Get key).1 = ((m.Add ps).Get key).1 ∧
    (∀ k, ((m.Add ps).Add ps).hashMap k = (m.Add ps).hashMap k) ∧
    List.Perm ((m.Add ps).Add ps).keys ((m.Add ps).keys ++ m.virtualNodes ps) := by
  obtain ⟨a1, a2, a3, a4, a5⟩ := Add_spec m ps
  obtain ⟨b1, b2, b3, b4, b5⟩ := Add_spec (m.Add ps) ps
  rw [virtualNodes_congr _ _ a1 a2] at b3 b4 b5
  have hmap : ∀ k, ((m.Add ps).Add ps).hashMap k = (m.Add ps).hashMap k := by
    intro k
    by_cases hk : k ∈ m.virtualNodes ps
    · have hag := addKey_foldl_agree ps (m.Add ps) m a1 a2
        (by
          intro j
          by_cases hj : j ∈ m.virtualNodes ps
          · left; rw [virtualNodes_congr _ _ a1 a2]; exact hj
          · right; exact a5 j hj)
        k
      exact hag
    · exact b5 k hk
  have hmem : ∀ w, w ∈ ((m.Add ps).Add ps).keys ↔ w ∈ (m.Add ps).keys := by
    intro w
    rw [b3.mem_iff, List.mem_append]
    constructor
    · rintro (h | h)
      · exact h
      · exact a3.mem_iff.mpr (List.mem_append.mpr (Or.inr h))
    · intro h; exact Or.inl h
  refine ⟨?_, hmap, b3⟩
  exact Get_same_values _ _ key b1 (Add_sorted _ _) (Add_sorted _ _) hmem
    (fun k _ => hmap k)

end consistenthash

/-! ## Theorems: the value wrapper on the heap -/

namespace GoCache

/-- A well-formed slice has as many elements as its length says. -/
theorem read_length (h : Heap) (s : Slice) (hv : s.valid h) : (h.read s).length = s.len := by
  unfold Heap.read
  rcases hv with h0 | ⟨_, hle⟩
  · simp [h0]
  · simp only [List.length_take, List.length_drop]
    omega

/-- Allocating one more array leaves the content of a well-formed slice as it was. -/
theorem read_append (h : Heap) (a : List UInt8) (s : Slice) (hv : s.valid h) :
    (h ++ [a]).read s = h.read s := by
  unfold Heap.read
  rcases hv with h0 | ⟨hlt, _⟩
  · simp [h0]
  · rw [List.getD_append _ _ _ _ hlt]

/-- Allocating one more array leaves a well-formed slice well formed. -/
theorem valid_append (h : Heap) (a : List UInt8) (s : Slice) (hv : s.valid h) :
    s.valid (h ++ [a]) := by
  rcases hv with h0 | ⟨hlt, hle⟩
  · exact Or.inl h0
  · refine Or.inr ⟨by simp; omega, ?_⟩
    rw [List.getD_append _ _ _ _ hlt]
    exact hle

/-- The function `cloneBytes` returns a slice over a fresh array that holds the content of
its argument; the arrays allocated before are untouched. -/
theorem cloneBytesRef_eq (h : Heap) (b : Slice) (hv : b.valid h) :
    cloneBytesRef h b = ({ arr := h.length, off := 0, len := b.len }, h ++ [h.read b]) := by
  have hlen := read_length h b hv
  have hread := read_append h (List.replicate b.len 0) b hv
  simp only [cloneBytesRef, Heap.copy, hread]
  have htake : (h.read b).take b.len = h.read b := by
    rw [← hlen]; exact List.take_length _
  simp only [htake, hlen]
  have hget : (h ++ [List.replicate b.len (0 : UInt8)]).getD h.length [] =
      List.replicate b.len 0 := by
    simp [List.getD_eq_getElem?_getD]
  rw [hget]
  simp

/-- The content of the slice returned by `cloneBytes`. -/
theorem read_fresh (h : Heap) (a : List UInt8) (n : Nat) (hn : a.length = n) :
    (h ++ [a]).read { arr := h.length, off := 0, len := n } = a := by
  unfold Heap.read
  have hget : (h ++ [a]).getD h.length [] = a := by
    simp [List.getD_eq_getElem?_getD]
  simp only [hget, List.drop_zero]
  rw [← hn]; exact List.take_length _

/-- Assignments to the elements of a slice over the most recently allocated array change
that array only. -/
theorem writes_fresh (h : Heap) (n : Nat) : ∀ (ws : List (Nat × UInt8)) (a : List UInt8),
    ∃ a1, (h ++ [a]).writes { arr := h.length, off := 0, len := n } ws = h ++ [a1] := by
  intro ws
  induction ws with
  | nil => intro a; exact ⟨a, rfl⟩
  | cons w ws ih =>
    intro a
    simp only [Heap.writes, List.foldl_cons] at ih ⊢
    by_cases hi : w.1 < n
    · have hstep : (h ++ [a]).write { arr := h.length, off := 0, len := n } w.1 w.2 =
          h ++ [a.set w.1 w.2] := by
        simp [Heap.write, hi, List.getD_eq_getElem?_getD]
      rw [hstep]
      exact ih _
    · have hstep : (h ++ [a]).write { arr := h.length, off := 0, len := n } w.1 w.2 =
          h ++ [a] := by
        simp [Heap.write, hi]
      rw [hstep]
      exact ih _

/-- C14: a `ByteView` holding the bytes `B` returns from `ByteSlice()` a sequence equal to
`B`, and `Len()` is the length of `B`; whatever is then assigned to the elements of the
returned slice, the `ByteView` still holds `B` and a later `ByteSlice()` returns a sequence
equal to `B` again. -/
theorem ByteSlice_round_trip (h : Heap) (v : ByteViewRef) (ws : List (Nat × UInt8))
    (hv : v.b.valid h) :
    (v.ByteSlice h).2.read (v.ByteSlice h).1 = h.read v.b ∧
    v.Len = (h.read v.b).length ∧
    ((v.ByteSlice h).2.writes (v.ByteSlice h).1 ws).read v.b = h.read v.b ∧
    (v.ByteSlice ((v.ByteSlice h).2.writes (v.ByteSlice h).1 ws)).2.read
      (v.ByteSlice ((v.ByteSlice h).2.writes (v.ByteSlice h).1 ws)).1 = h.read v.b := by
  have hlen := read_length h v.b hv
  have hclone : v.ByteSlice h =
      ({ arr := h.length, off := 0, len := v.b.len }, h ++ [h.read v.b]) :=
    cloneBytesRef_eq h v.b hv
  rw [hclone]
  obtain ⟨a1, ha1⟩ := writes_fresh h v.b.len ws (h.read v.b)
  simp only
  rw [ha1]
  have hv2 : v.b.valid (h ++ [a1]) := valid_append h a1 v.b hv
  have hread2 : (h ++ [a1]).read v.b = h.read v.b := read_append h a1 v.b hv
  have hclone2 : v.ByteSlice (h ++ [a1]) =
      ({ arr := (h ++ [a1]).length, off := 0, len := v.b.len },
        (h ++ [a1]) ++ [(h ++ [a1]).read v.b]) :=
    cloneBytesRef_eq (h ++ [a1]) v.b hv2
  rw [hclone2]
  refine ⟨read_fresh h _ _ hlen, hlen.symm, hread2, ?_⟩
  simp only
  rw [read_fresh (h ++ [a1]) _ _ (by rw [hread2]; exact hlen)]
  exact hread2

/-- Witness of C14: a `ByteView` over the middle three bytes of a five-byte array, and two
assignments to the copy it hands out. -/
theorem ByteSlice_round_trip_witness :
    ((⟨⟨0, 1, 3⟩⟩ : ByteViewRef).ByteSlice [[1, 2, 3, 4, 5]]).2.read
      ((⟨⟨0, 1, 3⟩⟩ : ByteViewRef).ByteSlice [[1, 2, 3, 4, 5]]).1 =
      Heap.read [[1, 2, 3, 4, 5]] (⟨⟨0, 1, 3⟩⟩ : ByteViewRef).b ∧
    (⟨⟨0, 1, 3⟩⟩ : ByteViewRef).Len =
      (Heap.read [[1, 2, 3, 4, 5]] (⟨⟨0, 1, 3⟩⟩ : ByteViewRef).b).length ∧
    (((⟨⟨0, 1, 3⟩⟩ : ByteViewRef).ByteSlice [[1, 2, 3, 4, 5]]).2.writes
      ((⟨⟨0, 1, 3⟩⟩ : ByteViewRef).ByteSlice [[1, 2, 3, 4, 5]]).1 [(0, 9), (2, 7)]).read
      (⟨⟨0, 1, 3⟩⟩ : ByteViewRef).b =
      Heap.read [[1, 2, 3, 4, 5]] (⟨⟨0, 1, 3⟩⟩ : ByteViewRef).b ∧
    ((⟨⟨0, 1, 3⟩⟩ : ByteViewRef).ByteSlice
      (((⟨⟨0, 1, 3⟩⟩ : ByteViewRef).ByteSlice [[1, 2, 3, 4, 5]]).2.writes
        ((⟨⟨0, 1, 3⟩⟩ : ByteViewRef).ByteSlice [[1, 2, 3, 4, 5]]).1 [(0, 9), (2, 7)])).2.read
      ((⟨⟨0, 1, 3⟩⟩ : ByteViewRef).ByteSlice
        (((⟨⟨0, 1, 3⟩⟩ : ByteViewRef).ByteSlice [[1, 2, 3, 4, 5]]).2.writes
          ((⟨⟨0, 1, 3⟩⟩ : ByteViewRef).ByteSlice [[1, 2, 3, 4, 5]]).1 [(0, 9), (2, 7)])).1 =
      Heap.read [[1, 2, 3, 4, 5]] (⟨⟨0, 1, 3⟩⟩ : ByteViewRef).b :=
  ByteSlice_round_trip [[1, 2, 3, 4, 5]] ⟨⟨0, 1, 3⟩⟩ [(0, 9), (2, 7)]
    (Or.inr ⟨by decide, by decide⟩)

end GoCache

/-! ## Theorems: the byte budget of the eviction shard -/

namespace GoCache

/-- The sum of the entry sizes of a list of entries. -/
theorem shardBytes_def (l : lru.Cache) :
    shardBytes l = (l.ll.map (fun e => e.value.Len)).sum := rfl

/-- With distinct keys, the entry found under a key and the entries under the other keys
make up the whole sum. -/
theorem sum_find_filter (key : String) : ∀ (ll : List lru.entry) (e : lru.entry),
    (ll.map (fun x => x.key)).Nodup → ll.find? (fun x => x.key = key) = some e →
    (ll.map (fun x => x.value.Len)).sum =
      e.value.Len + ((ll.filter (fun x => x.key ≠ key)).map (fun x => x.value.Len)).sum := by
  intro ll
  induction ll with
  | nil => intro e _ h; simp at h
  | cons x xs ih =>
    intro e hnd hfind
    simp only [List.map_cons, List.nodup_cons] at hnd
    by_cases hx : x.key = key
    · have he : e = x := by
        simp [List.find?_cons, hx] at hfind
        exact hfind.symm
      subst he
      have hfil : xs.filter (fun y => y.key ≠ key) = xs := by
        apply List.filter_eq_self.mpr
        intro y hy
        have : y.key ≠ e.key := by
          intro hye
          exact hnd.1 (by rw [← hye]; exact List.mem_map_of_mem _ hy)
        simpa [hx] using this
      have hgoal : (e :: xs).filter (fun y => y.key ≠ key) = xs := by
        rw [List.filter_cons_of_neg (by simp [hx]), hfil]
      rw [hgoal]
      simp
    · have hfind2 : xs.find? (fun y => y.key = key) = some e := by
        simpa [List.find?_cons, hx] using hfind
      have hrec := ih e hnd.2 hfind2
      have hgoal : (x :: xs).filter (fun y => y.key ≠ key) =
          x :: xs.filter (fun y => y.key ≠ key) :=
        List.filter_cons_of_pos (by simp [hx])
      rw [hgoal]
      simp only [List.map_cons, List.sum_cons]
      omega

/-- The keys left by filtering out a key are distinct and do not contain it. -/
theorem filter_keys (key : String) (ll : List lru.entry)
    (hnd : (ll.map (fun x => x.key)).Nodup) :
    ((ll.filter (fun x => x.key ≠ key)).map (fun x => x.key)).Nodup ∧
    key ∉ (ll.filter (fun x => x.key ≠ key)).map (fun x => x.key) := by
  constructor
  · exact hnd.sublist ((List.filter_sublist _).map _)
  · intro h
    obtain ⟨y, hy, hk⟩ := List.mem_map.mp h
    have := (List.mem_filter.mp hy).2
    simp [hk] at this

/-- A key that is not found is not among the keys. -/
theorem find_none_keys (key : String) (ll : List lru.entry)
    (h : ll.find? (fun x => x.key = key) = none) : key ∉ ll.map (fun x => x.key) := by
  intro hmem
  obtain ⟨y, hy, hk⟩ := List.mem_map.mp hmem
  have := List.find?_eq_none.mp h y hy
  simp [hk] at this

/-- The eviction loop, given as many rounds as there are entries, keeps the invariant and
the budget, and stops within budget or with an empty shard. -/
theorem evict_spec : ∀ (fuel : Nat) (c : lru.Cache), c.ll.length ≤ fuel → ShardOk c →
    ShardOk (lru.Cache.evict fuel c) ∧ (lru.Cache.evict fuel c).maxBytes = c.maxBytes ∧
    ((lru.Cache.evict fuel c).nbytes ≤ c.maxBytes ∨ (lru.Cache.evict fuel c).ll = []) := by
  intro fuel
  induction fuel with
  | zero =>
    intro c hlen hok
    have hnil : c.ll = [] := List.length_eq_zero.mp (Nat.le_zero.mp hlen)
    exact ⟨hok, rfl, Or.inr hnil⟩
  | succ fuel ih =>
    intro c hlen hok
    simp only [lru.Cache.evict]
    by_cases hover : c.maxBytes < c.nbytes
    · rw [if_pos hover]
      cases hlast : c.ll.getLast? with
      | none =>
        have hnil : c.ll = [] := List.getLast?_eq_none_iff.mp hlast
        exact ⟨hok, rfl, Or.inr hnil⟩
      | some e =>
        have hsplit : c.ll = c.ll.dropLast ++ [e] :=
          (List.dropLast_append_getLast? e hlast).symm
        have hok2 : ShardOk { c with ll := c.ll.dropLast, nbytes := c.nbytes - e.value.Len } := by
          constructor
          · have h1 := hok.1
            simp only [shardBytes_def] at h1 ⊢
            have hsum : (c.ll.map (fun x => x.value.Len)).sum =
                (c.ll.dropLast.map (fun x => x.value.Len)).sum + e.value.Len := by
              conv_lhs => rw [hsplit]
              simp
            show c.nbytes - e.value.Len = (c.ll.dropLast.map (fun x => x.value.Len)).sum
            omega
          · exact hok.2.sublist ((List.dropLast_sublist _).map _)
        have hlen2 : c.ll.dropLast.length ≤ fuel := by
          simp only [List.length_dropLast]
          omega
        exact ih _ hlen2 hok2
    · rw [if_neg hover]
      exact ⟨hok, rfl, Or.inl (by omega)⟩

/-- The method `lru.Cache.Add` keeps the invariant and the budget and leaves no more bytes
in the shard than a non-negative budget allows. -/
theorem lru_Add_ok (l : lru.Cache) (key : String) (value : ByteView) (hok : ShardOk l)
    (hb : 0 ≤ l.maxBytes) :
    ShardOk (l.Add key value) ∧ (l.Add key value).maxBytes = l.maxBytes ∧
    shardBytes (l.Add key value) ≤ l.maxBytes := by
  unfold lru.Cache.Add
  cases hfind : l.ll.find? (fun e => e.key = key) with
  | none =>
    have hok1 : ShardOk { l with ll := ⟨key, value⟩ :: l.ll, nbytes := l.nbytes + value.Len } := by
      constructor
      · have h1 := hok.1
        simp only [shardBytes_def, List.map_cons, List.sum_cons] at h1 ⊢
        omega
      · simp only [List.map_cons, List.nodup_cons]
        exact ⟨find_none_keys key l.ll hfind, hok.2⟩
    obtain ⟨e1, e2, e3⟩ := evict_spec _ _ (le_refl _) hok1
    refine ⟨e1, e2, ?_⟩
    rcases e3 with h | h
    · rw [← e1.1]; exact h
    · simp only [shardBytes_def, h, List.map_nil, List.sum_nil]; exact hb
  | some e =>
    obtain ⟨f1, f2⟩ := filter_keys key l.ll hok.2
    have hok1 : ShardOk { l with
        ll := ⟨key, value⟩ :: l.ll.filter (fun x => x.key ≠ key)
        nbytes := l.nbytes + (value.Len - e.value.Len) } := by
      constructor
      · have h1 := hok.1
        have h2 := sum_find_filter key l.ll e hok.2 hfind
        simp only [shardBytes_def, List.map_cons, List.sum_cons] at h1 ⊢
        omega
      · simp only [List.map_cons, List.nodup_cons]
        exact ⟨f2, f1⟩
    obtain ⟨e1, e2, e3⟩ := evict_spec _ _ (le_refl _) hok1
    refine ⟨e1, e2, ?_⟩
    rcases e3 with h | h
    · rw [← e1.1]; exact h
    · simp only [shardBytes_def, h, List.map_nil, List.sum_nil]; exact hb

/-- The method `lru.Cache.Get` keeps the invariant, the budget and the sum of the sizes. -/
theorem lru_Get_ok (l : lru.Cache) (key : String) (hok : ShardOk l) :
    ShardOk (l.Get key).2 ∧ (l.Get key).2.maxBytes = l.maxBytes ∧
    shardBytes (l.Get key).2 = shardBytes l := by
  unfold lru.Cache.Get
  cases hfind : l.ll.find? (fun e => e.key = key) with
  | none => exact ⟨hok, rfl, rfl⟩
  | some e =>
    obtain ⟨f1, f2⟩ := filter_keys key l.ll hok.2
    have hkey : e.key = key := by
      have := List.find?_some hfind
      simpa using this
    have hsum := sum_find_filter key l.ll e hok.2 hfind
    have hbytes : shardBytes { l with ll := e :: l.ll.filter (fun x => x.key ≠ key) } =
        shardBytes l := by
      simp only [shardBytes_def, List.map_cons, List.sum_cons]
      omega
    refine ⟨⟨?_, ?_⟩, rfl, hbytes⟩
    · show l.nbytes = _
      rw [hbytes]; exact hok.1
    · simp only [List.map_cons, List.nodup_cons]
      exact ⟨by rw [hkey]; exact f2, f1⟩

/-- Every call on the facade keeps the facade invariant of a non-negative budget. -/
theorem step_ok (budget : Int) (hb : 0 ≤ budget) (c : cache) (op : cacheOp)
    (hok : FacadeOk budget c) : FacadeOk budget (c.step op) := by
  obtain ⟨hn, hl⟩ := hok
  cases op with
  | add key value =>
    simp only [cache.step, cache.add]
    refine ⟨hn, ?_⟩
    intro l1 hl1
    cases hc : c.lru with
    | none =>
      simp only [hc, Option.some.injEq] at hl1
      have hnew : ShardOk (lru.New c.nbytes) := ⟨rfl, List.nodup_nil⟩
      obtain ⟨a1, a2, a3⟩ := lru_Add_ok (lru.New c.nbytes) key value hnew
        (by show 0 ≤ c.nbytes; rw [hn]; exact hb)
      subst hl1
      have hmax : (lru.New c.nbytes).maxBytes = budget := hn
      exact ⟨a1, a2.trans hmax, by rw [← hmax]; exact a3⟩
    | some l =>
      simp only [hc, Option.some.injEq] at hl1
      obtain ⟨b1, b2, _⟩ := hl l hc
      obtain ⟨a1, a2, a3⟩ := lru_Add_ok l key value b1 (by rw [b2]; exact hb)
      subst hl1
      exact ⟨a1, a2.trans b2, by rw [← b2]; exact a3⟩
  | get key =>
    cases hc : c.lru with
    | none =>
      have hstep : c.step (cacheOp.get key) = c := by
        simp only [cache.step, cache.get, hc]
      rw [hstep]
      exact ⟨hn, hl⟩
    | some l =>
      obtain ⟨b1, b2, b3⟩ := hl l hc
      obtain ⟨a1, a2, a3⟩ := lru_Get_ok l key b1
      simp only [cache.step, cache.get, hc]
      cases hg : l.Get key with
      | mk r l1 =>
        rw [hg] at a1 a2 a3
        cases r with
        | none =>
          refine ⟨hn, ?_⟩
          intro l2 hl2
          simp only [Option.some.injEq] at hl2
          subst hl2
          exact ⟨a1, a2.trans b2, by rw [a3]; exact b3⟩
        | some v =>
          refine ⟨hn, ?_⟩
          intro l2 hl2
          simp only [Option.some.injEq] at hl2
          subst hl2
          exact ⟨a1, a2.trans b2, by rw [a3]; exact b3⟩

/-- Every finite sequence of calls keeps the facade invariant of a non-negative budget. -/
theorem run_ok (budget : Int) (hb : 0 ≤ budget) : ∀ (ops : List cacheOp) (c : cache),
    FacadeOk budget c → FacadeOk budget (c.run ops) := by
  intro ops
  induction ops with
  | nil => intro c h; exact h
  | cons op ops ih =>
    intro c h
    exact ih (c.step op) (step_ok budget hb c op h)

/-- C15 as stated fails: with the byte budget -1 the shard is empty after `add`, so the
entries held sum to 0, which exceeds the configured budget. -/
theorem byte_budget_counterexample :
    ¬ ((cache.run { lru := none, nbytes := -1 } [cacheOp.add "k" ⟨[7]⟩]).heldBytes ≤ -1) := by
  decide

/-- C15, amended: for every non-negative byte budget and every finite sequence of
`cache.add` / `cache.get` calls on a facade created with that budget, after each call of the
sequence the sizes of the entries held by the shard sum to at most the budget. -/
theorem byte_budget (budget : Int) (ops : List cacheOp) (n : Nat) (hb : 0 ≤ budget) :
    (cache.run { lru := none, nbytes := budget } (ops.take n)).heldBytes ≤ budget := by
  have hinit : FacadeOk budget { lru := none, nbytes := budget } :=
    ⟨rfl, fun l hl => by simp at hl⟩
  obtain ⟨_, hl⟩ := run_ok budget hb (ops.take n) _ hinit
  unfold cache.heldBytes
  cases hc : (cache.run { lru := none, nbytes := budget } (ops.take n)).lru with
  | none => exact hb
  | some l => exact (hl l hc).2.2

/-- Witness of the amended C15: a budget of three bytes and four calls, watched after the
third. -/
theorem byte_budget_witness :
    (cache.run { lru := none, nbytes := 3 }
      (([cacheOp.add "a" ⟨[1, 2]⟩, cacheOp.get "a", cacheOp.add "b" ⟨[3, 4]⟩,
        cacheOp.add "a" ⟨[5]⟩] : List cacheOp).take 3)).heldBytes ≤ 3 :=
  byte_budget 3 [cacheOp.add "a" ⟨[1, 2]⟩, cacheOp.get "a", cacheOp.add "b" ⟨[3, 4]⟩,
    cacheOp.add "a" ⟨[5]⟩] 3 (by decide)

end GoCache
